import Mathlib

/-!
# Verification of the hecs-hierarchy engine

A shallow embedding of the hierarchy engine of the `hecs-hierarchy` crate:
the two linked-list components `Parent<T>` / `Child<T>` (src/components.rs),
the mutation operations `attach`, `attach_new`, `detach`, `detach_children`,
`despawn_children`, `despawn_all`, `detach_all` (src/hierarchy.rs), and the
traversal iterators `ChildrenIter`, `AncestorIter`, `DepthFirstIterator`,
`DepthFirstVisitor`, `BreadthFirstIterator` (src/iter.rs).

Entities are modelled as natural numbers.  The entity-component table (the
external `hecs::World`) is modelled as: a list of live entities, a fresh-id
counter, and per-tag partial maps for the `Parent` and `Child` components.
Hierarchy tags are modelled by the inductive `Tag` (`base` stands for the
user tag `T`, `child t` for the marker type `Child<T>` used by
`despawn_children`).  Component lookups distinguish, like `hecs_schedule`:
`NoSuchEntity` (dead handle) from `MissingComponent` (live handle, absent
component); query-view lookups (`view.get`) return an `Option` instead.
Rust panics (`unwrap` on `None`/`Err`) are modelled by the `Res.panicked`
outcome; mutating operations return their outcome together with the world
as mutated so far, so partial mutation before an early error is preserved
exactly as in the Rust code.
-/

namespace HecsHierarchy

/-- Hierarchy tag: `base` is the user marker type `T`; `child t` is the
marker type `Child<T>` (used as tag by `despawn_children`). -/
inductive Tag where
  | base : Tag
  | child : Tag → Tag
deriving DecidableEq

/-- `Parent<T>` component (src/components.rs): child count and the
boundary (last) child of the circular sibling list. -/
structure Parent where
  num_children : Nat
  last_child : Nat
deriving DecidableEq

/-- `Child<T>` component (src/components.rs): owning parent and the
next/previous sibling in the circular doubly-linked list. -/
structure Child where
  parent : Nat
  next : Nat
  prev : Nat
deriving DecidableEq

/-- Error kinds of `hecs_schedule::Error` that the engine surfaces. -/
inductive Error where
  | NoSuchEntity : Nat → Error
  | MissingComponent : Nat → Error
deriving DecidableEq

/-- Outcome of an operation: a value, a surfaced error, a Rust panic
(`unwrap` failure), or - for fueled loops only - fuel exhaustion. -/
inductive Res (α : Type) where
  | ok : α → Res α
  | err : Error → Res α
  | panicked : Res α
  | fuelOut : Res α
deriving DecidableEq

/-- Map the value of a successful outcome. -/
def Res.map {α β : Type} (f : α → β) : Res α → Res β
  | .ok a => .ok (f a)
  | .err e => .err e
  | .panicked => .panicked
  | .fuelOut => .fuelOut

/-- The entity-component table, restricted to what the hierarchy engine
touches: live entities, a fresh-id counter, and the `Parent<T>`/`Child<T>`
columns for every tag `T`. -/
structure World where
  nextId : Nat
  alive : List Nat
  pComp : Tag → Nat → Option Parent
  cComp : Tag → Nat → Option Child

/-- The empty world. -/
def World.empty : World :=
  { nextId := 0, alive := [], pComp := fun _ _ => none, cComp := fun _ _ => none }

/-- `world.spawn(..)`: allocate a fresh live entity (hierarchy components
are never part of the spawned bundle). -/
def spawnW (w : World) : Nat × World :=
  (w.nextId, { w with nextId := w.nextId + 1, alive := w.nextId :: w.alive })

/-- `try_get::<Parent<T>>` - dead handle gives `NoSuchEntity`, live handle
without the component gives `MissingComponent`. -/
def tryGetP (w : World) (t : Tag) (e : Nat) : Res Parent :=
  if e ∈ w.alive then
    match w.pComp t e with
    | some v => .ok v
    | none => .err (.MissingComponent e)
  else .err (.NoSuchEntity e)

/-- `try_get::<Child<T>>`. -/
def tryGetC (w : World) (t : Tag) (e : Nat) : Res Child :=
  if e ∈ w.alive then
    match w.cComp t e with
    | some v => .ok v
    | none => .err (.MissingComponent e)
  else .err (.NoSuchEntity e)

/-- `query.view().get::<Parent<T>>(e)` - an `Option`, no error channel. -/
def viewP (w : World) (t : Tag) (e : Nat) : Option Parent :=
  if e ∈ w.alive then w.pComp t e else none

/-- `query.view().get::<Child<T>>(e)`. -/
def viewC (w : World) (t : Tag) (e : Nat) : Option Child :=
  if e ∈ w.alive then w.cComp t e else none

/-- Overwrite (or insert) the `Parent` component of `e` for tag `t`. -/
def setP (w : World) (t : Tag) (e : Nat) (v : Parent) : World :=
  { w with pComp := fun t1 e1 => if t1 = t ∧ e1 = e then some v else w.pComp t1 e1 }

/-- Overwrite (or insert) the `Child` component of `e` for tag `t`. -/
def setC (w : World) (t : Tag) (e : Nat) (v : Child) : World :=
  { w with cComp := fun t1 e1 => if t1 = t ∧ e1 = e then some v else w.cComp t1 e1 }

/-- Remove the `Parent` component of `e` for tag `t`. -/
def removeP (w : World) (t : Tag) (e : Nat) : World :=
  { w with pComp := fun t1 e1 => if t1 = t ∧ e1 = e then none else w.pComp t1 e1 }

/-- Remove the `Child` component of `e` for tag `t`. -/
def removeC (w : World) (t : Tag) (e : Nat) : World :=
  { w with cComp := fun t1 e1 => if t1 = t ∧ e1 = e then none else w.cComp t1 e1 }

/-- `world.despawn(e)` (failure ignored by all call sites in the engine):
remove the entity and all of its components, for every tag. -/
def despawnW (w : World) (e : Nat) : World :=
  { w with
    alive := w.alive.filter (fun x => x ≠ e)
    pComp := fun t1 e1 => if e1 = e then none else w.pComp t1 e1
    cComp := fun t1 e1 => if e1 = e then none else w.cComp t1 e1 }

/-- `HierarchyMut::attach::<T>(child, parent)` (src/hierarchy.rs lines
82-115), translated statement by statement.  The returned world reflects
every mutation performed before an early `?`-return. -/
def attach (w : World) (t : Tag) (child parent : Nat) : Res Nat × World :=
  match tryGetP w t parent with
  | .ok p =>
    -- p.num_children += 1; let prev = p.last_child; p.last_child = child;
    let prev := p.last_child
    let w1 := setP w t parent ⟨p.num_children + 1, child⟩
    match tryGetC w1 t prev with
    | .ok prev_data =>
      -- let next = prev_data.next; prev_data.next = child;
      let next := prev_data.next
      let w2 := setC w1 t prev { prev_data with next := child }
      -- next_data.prev = child;
      match tryGetC w2 t next with
      | .ok next_data =>
        let w3 := setC w2 t next { next_data with prev := child }
        -- try_insert(child, Child::new(parent, next, prev))
        if child ∈ w3.alive then
          (.ok child, setC w3 t child ⟨parent, next, prev⟩)
        else (.err (.NoSuchEntity child), w3)
      | .err e => (.err e, w2)
      | _ => (.panicked, w2)
    | .err e => (.err e, w1)
    | _ => (.panicked, w1)
  | _ =>
    -- Parent component did not exist:
    -- try_insert(parent, Parent::new(1, child)); try_insert(child, Child::new(parent, child, child))
    if parent ∈ w.alive then
      let w1 := setP w t parent ⟨1, child⟩
      if child ∈ w1.alive then
        (.ok child, setC w1 t child ⟨parent, child, child⟩)
      else (.err (.NoSuchEntity child), w1)
    else (.err (.NoSuchEntity parent), w)

/-- `HierarchyMut::attach_new::<T>(parent, components)`: spawn then attach. -/
def attach_new (w : World) (t : Tag) (parent : Nat) : Res Nat × World :=
  let s := spawnW w
  attach s.2 t s.1 parent

/-- `HierarchyMut::detach::<T>(child)` (src/hierarchy.rs lines 159-177).
Reads the child's `Child<T>`, unlinks it from the sibling cycle, decrements
the parent's `num_children` and repoints `last_child` if needed.  Note: it
removes neither the child's `Child<T>` component nor a zero-count
`Parent<T>` component. -/
def detach (w : World) (t : Tag) (child : Nat) : Res Unit × World :=
  match tryGetC w t child with
  | .ok data =>
    let parent := data.parent
    let prev := data.prev
    let next := data.next
    match tryGetC w t prev with
    | .ok dp =>
      let w1 := setC w t prev { dp with next := next }
      match tryGetC w1 t next with
      | .ok dn =>
        let w2 := setC w1 t next { dn with prev := prev }
        match tryGetP w2 t parent with
        | .ok p =>
          (.ok (),
            setP w2 t parent
              ⟨p.num_children - 1, if p.last_child = child then prev else p.last_child⟩)
        | .err e => (.err e, w2)
        | _ => (.panicked, w2)
      | .err e => (.err e, w1)
      | _ => (.panicked, w1)
    | .err e => (.err e, w)
    | _ => (.panicked, w)
  | .err e => (.err e, w)
  | _ => (.panicked, w)

/-- One step of `ChildrenIter::next` plus the driving loop
(src/iter.rs lines 41-54): `remaining` is used as fuel, a failed
`view.get` silently ends the walk. -/
def childrenRun (w : World) (t : Tag) : Nat → Option Nat → List Nat
  | 0, _ => []
  | _ + 1, none => []
  | n + 1, some current =>
    match viewC w t current with
    | none => []
    | some data => current :: childrenRun w t n (some data.next)

/-- Construction of `ChildrenIter` by `Hierarchy::children`
(src/hierarchy.rs lines 214-229): on a missing `Parent<T>` or a failed
`first_child` lookup, the empty iterator `(0, None)` is returned. -/
def childrenInit (w : World) (t : Tag) (parent : Nat) : Nat × Option Nat :=
  match tryGetP w t parent with
  | .ok p =>
    match tryGetC w t p.last_child with
    | .ok d => (p.num_children, some d.next)
    | _ => (0, none)
  | _ => (0, none)

/-- The full sequence yielded by `children(parent)`. -/
def childrenList (w : World) (t : Tag) (parent : Nat) : List Nat :=
  (childrenInit w t parent).2 |> childrenRun w t (childrenInit w t parent).1

/-- `ChildrenIter::count`: returns `self.remaining` without walking. -/
def childrenCount (w : World) (t : Tag) (parent : Nat) : Nat :=
  (childrenInit w t parent).1

/-- `AncestorIter::next` iterated with fuel (src/iter.rs lines 84-95):
yields `child.parent` and moves up; stops silently when the current entity
has no `Child<T>`. -/
def ancestorsRun (w : World) (t : Tag) : Nat → Nat → List Nat
  | 0, _ => []
  | n + 1, current =>
    match viewC w t current with
    | none => []
    | some child => child.parent :: ancestorsRun w t n child.parent

/-- `Hierarchy::parent::<T>(child)` (src/hierarchy.rs lines 197-199). -/
def parentOf (w : World) (t : Tag) (child : Nat) : Res Nat :=
  (tryGetC w t child).map Child.parent

/-- `roots::<T>()`: the entities holding `Parent<T>` but no `Child<T>`
(src/hierarchy.rs lines 255-257), as the list of matching live entities. -/
def rootsList (w : World) (t : Tag) : List Nat :=
  w.alive.filter (fun e => (w.pComp t e).isSome && (w.cComp t e).isNone)

/-- A `DepthFirstIterator` stack frame (src/iter.rs lines 97-101). -/
structure Frame where
  current : Nat
  remaining : Nat
deriving DecidableEq

/-- Result of one `DepthFirstIterator::next` call. -/
inductive Step where
  | yield : Nat → List Frame → Step
  | done : Step
  | panicked : Step
deriving DecidableEq

/-- `DepthFirstIterator::new` (src/iter.rs lines 111-135): seed the stack
with the root's first child, or leave it empty when the root has no
`Parent<T>` or the `first_child` lookup fails. -/
def dfsNew (w : World) (t : Tag) (root : Nat) : List Frame :=
  match viewP w t root with
  | none => []
  | some p =>
    match tryGetC w t p.last_child with
    | .ok d => [⟨d.next, p.num_children⟩]
    | _ => []

/-- `DepthFirstIterator::next` (src/iter.rs lines 222-255).  The stack top
is the list head.  Both `children.get(top.current).unwrap()` and
`parent.view_first_child(&children).unwrap()` panic when the lookup fails. -/
def dfsNext (w : World) (t : Tag) : List Frame → Step
  | [] => .done
  | ⟨_, 0⟩ :: rest => dfsNext w t rest
  | ⟨current, r + 1⟩ :: rest =>
    match viewC w t current with
    | none => .panicked
    | some data =>
      match viewP w t current with
      | none => .yield current (⟨data.next, r⟩ :: rest)
      | some p =>
        match viewC w t p.last_child with
        | none => .panicked
        | some dl => .yield current (⟨dl.next, p.num_children⟩ :: ⟨data.next, r⟩ :: rest)

/-- Driving loop of the depth-first iterator; one unit of fuel per yielded
entity. -/
def dfsRun (w : World) (t : Tag) : Nat → List Frame → Res (List Nat)
  | 0, _ => .fuelOut
  | fuel + 1, st =>
    match dfsNext w t st with
    | .done => .ok []
    | .panicked => .panicked
    | .yield e st1 =>
      match dfsRun w t fuel st1 with
      | .ok l => .ok (e :: l)
      | r => r

/-- `descendants_depth_first` run to completion with the given fuel. -/
def descendantsDF (w : World) (t : Tag) (fuel root : Nat) : Res (List Nat) :=
  dfsRun w t fuel (dfsNew w t root)

/-- One `DepthFirstVisitor::next` call (src/iter.rs lines 186-219) with
acceptance predicate `accept`; `skip` reports a rejected node (the Rust
loop `continue`s).  The same two `unwrap`s as `DepthFirstIterator` panic
on a failed lookup. -/
inductive VStep where
  | yield : Nat → List Frame → VStep
  | skip : List Frame → VStep
  | done : VStep
  | panicked : VStep
deriving DecidableEq

/-- One iteration of the `DepthFirstVisitor` loop body. -/
def visitorStep (w : World) (t : Tag) (accept : Nat → Bool) : List Frame → VStep
  | [] => .done
  | ⟨_, 0⟩ :: rest => visitorStep w t accept rest
  | ⟨current, r + 1⟩ :: rest =>
    match viewC w t current with
    | none => .panicked
    | some data =>
      if accept current then
        match viewP w t current with
        | none => .yield current (⟨data.next, r⟩ :: rest)
        | some p =>
          match viewC w t p.last_child with
          | none => .panicked
          | some dl => .yield current (⟨dl.next, p.num_children⟩ :: ⟨data.next, r⟩ :: rest)
      else .skip (⟨data.next, r⟩ :: rest)

/-- `BreadthFirstIterator` (src/iter.rs lines 257-289): FIFO queue seeded
with `children(root)`; each dequeued entity enqueues its own children. -/
def bfsRun (w : World) (t : Tag) : Nat → List Nat → List Nat
  | 0, _ => []
  | _ + 1, [] => []
  | fuel + 1, front :: queue => front :: bfsRun w t fuel (queue ++ childrenList w t front)

/-- `descendants_breadth_first` run to completion with the given fuel. -/
def descendantsBF (w : World) (t : Tag) (fuel root : Nat) : List Nat :=
  bfsRun w t fuel (childrenList w t root)

/-- `HierarchyMut::detach_children` (src/hierarchy.rs lines 133-144):
collect the children, `try_remove_one::<Child<T>>` each (any failure is
mapped to `NoSuchEntity` and aborts), then
`remove_one::<Parent<T>>(parent).unwrap()` - a panic when `parent` is dead
or holds no `Parent<T>`. -/
def removeChildLoop (w : World) (t : Tag) : List Nat → Res Unit × World
  | [] => (.ok (), w)
  | c :: cs =>
    if c ∈ w.alive ∧ (w.cComp t c).isSome then
      removeChildLoop (removeC w t c) t cs
    else (.err (.NoSuchEntity c), w)

/-- `detach_children`, returning the collected children on success. -/
def detach_children (w : World) (t : Tag) (parent : Nat) : Res (List Nat) × World :=
  let children := childrenList w t parent
  match removeChildLoop w t children with
  | (.ok _, w1) =>
    if parent ∈ w1.alive ∧ (w1.pComp t parent).isSome then
      (.ok children, removeP w1 t parent)
    else (.panicked, w1)
  | (.err e, w1) => (.err e, w1)
  | (_, w1) => (.panicked, w1)

/-- `HierarchyMut::detach_all` (src/hierarchy.rs lines 126-130):
`detach_children` then `detach`. -/
def detach_all (w : World) (t : Tag) (e : Nat) : Res Unit × World :=
  match detach_children w t e with
  | (.ok _, w1) =>
    match detach w1 t e with
    | (.ok _, w2) => (.ok (), w2)
    | (r, w2) => (r, w2)
  | (.err er, w1) => (.err er, w1)
  | (.panicked, w1) => (.panicked, w1)
  | (.fuelOut, w1) => (.fuelOut, w1)

/-- `HierarchyMut::despawn_all::<T>(parent)` (src/hierarchy.rs lines
179-193): collect the depth-first descendants, best-effort `detach` the
root (result ignored, partial mutation kept), despawn every descendant,
then despawn the root.  A panic inside the descendant collection
propagates. -/
def despawn_all (w : World) (t : Tag) (fuel parent : Nat) : Res Unit × World :=
  match descendantsDF w t fuel parent with
  | .ok to_despawn =>
    let w1 := (detach w t parent).2
    let w2 := to_despawn.foldl despawnW w1
    (.ok (), despawnW w2 parent)
  | .panicked => (.panicked, w)
  | .fuelOut => (.fuelOut, w)
  | .err _ => (.panicked, w)

/-- `HierarchyMut::despawn_children::<T>(parent)` (src/hierarchy.rs lines
147-157): collect the children of `parent` in tag `t`, then for each child
run `despawn_all::<Child<T>>` - note the tag is `Tag.child t`, not `t` -
then `remove_one::<Parent<T>>(parent).unwrap()`. -/
def despawnChildLoop (w : World) (t : Tag) (fuel : Nat) : List Nat → Res Unit × World
  | [] => (.ok (), w)
  | c :: cs =>
    match despawn_all w (Tag.child t) fuel c with
    | (.ok _, w1) => despawnChildLoop w1 t fuel cs
    | r => r

/-- `despawn_children`. -/
def despawn_children (w : World) (t : Tag) (fuel parent : Nat) : Res Unit × World :=
  let children := childrenList w t parent
  match despawnChildLoop w t fuel children with
  | (.ok _, w1) =>
    if parent ∈ w1.alive ∧ (w1.pComp t parent).isSome then
      (.ok (), removeP w1 t parent)
    else (.panicked, w1)
  | r => r

end HecsHierarchy

namespace HecsHierarchy

/-! ## Abstract forests

A `Tre` is a finite rose tree of entities; a `Fst` is a finite forest.
Forests record, for every entity that has been attached, its children in
attach order; they are the abstract state against which the concrete
component data of a `World` is checked. -/

mutual
inductive Tre where
  | node : Nat → Fst → Tre
inductive Fst where
  | nil : Fst
  | cons : Tre → Fst → Fst
end

/-- The entity at the root of a tree. -/
def Tre.root : Tre → Nat
  | .node e _ => e

/-- The child forest of a tree. -/
def Tre.kids : Tre → Fst
  | .node _ ks => ks

mutual
/-- All entities of a tree, in preorder (root first). -/
def Tre.nodes : Tre → List Nat
  | .node e ks => e :: Fst.nodes ks

/-- All entities of a forest, in preorder. -/
def Fst.nodes : Fst → List Nat
  | .nil => []
  | .cons t ts => t.nodes ++ Fst.nodes ts
end

/-- The roots of the trees of a forest, in order. -/
def Fst.rootsOf : Fst → List Nat
  | .nil => []
  | .cons t ts => t.root :: Fst.rootsOf ts

/-- Number of trees in a forest. -/
def Fst.length : Fst → Nat
  | .nil => 0
  | .cons _ ts => Fst.length ts + 1

/-- Append a tree at the end of a forest. -/
def Fst.snoc : Fst → Tre → Fst
  | .nil, tc => .cons tc .nil
  | .cons t ts, tc => .cons t (Fst.snoc ts tc)

/-- Look up the top-level tree with the given root. -/
def Fst.getTop : Fst → Nat → Option Tre
  | .nil, _ => none
  | .cons t ts, c => if t.root = c then some t else Fst.getTop ts c

/-- Remove the top-level tree with the given root. -/
def Fst.removeTop : Fst → Nat → Fst
  | .nil, _ => .nil
  | .cons t ts, c => if t.root = c then ts else .cons t (Fst.removeTop ts c)

mutual
/-- Append `tc` to the child list of the node labelled `p`. -/
def addKidT : Tre → Nat → Tre → Tre
  | .node e ks, p, tc => if e = p then .node e (ks.snoc tc) else .node e (addKidF ks p tc)

/-- `addKidT` mapped over a forest. -/
def addKidF : Fst → Nat → Tre → Fst
  | .nil, _, _ => .nil
  | .cons t ts, p, tc => .cons (addKidT t p tc) (addKidF ts p tc)
end

mutual
/-- `p` is a node of the tree and its child forest there is `ks`. -/
inductive KidsAtT : Tre → Nat → Fst → Prop
  | here (e : Nat) (ks : Fst) : KidsAtT (.node e ks) e ks
  | deeper {e ks0 p ks} : KidsAtF ks0 p ks → KidsAtT (.node e ks0) p ks

/-- `p` is a node of the forest and its child forest there is `ks`. -/
inductive KidsAtF : Fst → Nat → Fst → Prop
  | head {t ts p ks} : KidsAtT t p ks → KidsAtF (.cons t ts) p ks
  | tail {t ts p ks} : KidsAtF ts p ks → KidsAtF (.cons t ts) p ks
end

/-! ## Sibling cycles -/

/-- `b` is the next sibling of `a`, both children of `p`. -/
def LinkN (w : World) (t : Tag) (p a b : Nat) : Prop :=
  ∃ d, viewC w t a = some d ∧ d.parent = p ∧ d.next = b

/-- `a` is the previous sibling of `b`, both children of `p`. -/
def LinkP (w : World) (t : Tag) (p a b : Nat) : Prop :=
  ∃ d, viewC w t b = some d ∧ d.parent = p ∧ d.prev = a

/-- `a` and `b` are consecutive members of the sibling cycle of `p`. -/
def Adj (w : World) (t : Tag) (p a b : Nat) : Prop :=
  LinkN w t p a b ∧ LinkP w t p a b

/-- `lastD a l` is the last element of `a :: l` (no proof argument). -/
def lastD {α : Type} : α → List α → α
  | a, [] => a
  | _, b :: l => lastD b l

/-- The list `rs` is, in order, the circular doubly-linked sibling list of
the children of `p`. -/
def CycleOk (w : World) (t : Tag) (p : Nat) : List Nat → Prop
  | [] => False
  | r :: rs =>
    List.Chain (Adj w t p) r rs ∧ Adj w t p (lastD r rs) r

/-- The `(parent, next)` projection of an entity's `Child` component. -/
def nextParent (w : World) (t : Tag) (x : Nat) : Option (Nat × Nat) :=
  (viewC w t x).map (fun d => (d.parent, d.next))

/-- The `(parent, prev)` projection of an entity's `Child` component. -/
def prevParent (w : World) (t : Tag) (x : Nat) : Option (Nat × Nat) :=
  (viewC w t x).map (fun d => (d.parent, d.prev))

theorem LinkN_frame {w w1 : World} {t : Tag} {p a b : Nat}
    (h : nextParent w1 t a = nextParent w t a) (hl : LinkN w t p a b) : LinkN w1 t p a b := by
  obtain ⟨d, hd, hp, hn⟩ := hl
  unfold nextParent at h
  rw [hd] at h
  cases hv : viewC w1 t a with
  | none => rw [hv] at h; simp at h
  | some d1 =>
    rw [hv] at h
    simp at h
    exact ⟨d1, hv, by rw [h.1, hp], by rw [h.2, hn]⟩

theorem LinkP_frame {w w1 : World} {t : Tag} {p a b : Nat}
    (h : prevParent w1 t b = prevParent w t b) (hl : LinkP w t p a b) : LinkP w1 t p a b := by
  obtain ⟨d, hd, hp, hn⟩ := hl
  unfold prevParent at h
  rw [hd] at h
  cases hv : viewC w1 t b with
  | none => rw [hv] at h; simp at h
  | some d1 =>
    rw [hv] at h
    simp at h
    exact ⟨d1, hv, by rw [h.1, hp], by rw [h.2, hn]⟩

/-- A chain of adjacencies survives a world update that preserves the
`(parent, next)` data of all sources and the `(parent, prev)` data of all
targets. -/
theorem chain_Adj_frame {w w1 : World} {t : Tag} {p : Nat} :
    ∀ {l : List Nat} {a : Nat}, List.Chain (Adj w t p) a l →
    (∀ x ∈ (a :: l).dropLast, nextParent w1 t x = nextParent w t x) →
    (∀ y ∈ l, prevParent w1 t y = prevParent w t y) →
    List.Chain (Adj w1 t p) a l
  | [], _, _, _, _ => List.Chain.nil
  | b :: l, a, h, hn, hp => by
    rw [List.chain_cons] at h ⊢
    refine ⟨⟨LinkN_frame (hn a (by cases l <;> simp)) h.1.1,
      LinkP_frame (hp b (by simp)) h.1.2⟩, ?_⟩
    exact chain_Adj_frame h.2
      (fun x hx => hn x (by cases l with
        | nil => simp at hx
        | cons c l1 => simpa using Or.inr hx))
      (fun y hy => hp y (by simp [hy]))


theorem lastD_cons {α : Type} (a b : α) (l : List α) : lastD a (b :: l) = lastD b l := rfl

theorem lastD_append_singleton {α : Type} :
    ∀ (l : List α) (a b : α), lastD a (l ++ [b]) = b
  | [], _, _ => rfl
  | c :: l, a, b => lastD_append_singleton l c b

theorem lastD_mem {α : Type} : ∀ (l : List α) (a : α), lastD a l ∈ a :: l
  | [], _ => by simp [lastD]
  | b :: l, a => by
    rw [lastD_cons]
    have := lastD_mem l b
    simp at this ⊢
    tauto

theorem lastD_of_append_singleton_eq {α : Type} :
    ∀ {l l1 : List α} {a b : α}, l ++ [b] = a :: l1 → lastD a l1 = b := by
  intro l l1 a b h
  cases l with
  | nil =>
    simp at h
    rw [h.1, h.2]
    rfl
  | cons c l2 =>
    rw [List.cons_append] at h
    obtain ⟨rfl, rfl⟩ := List.cons.inj h
    exact lastD_append_singleton l2 c b

/-- Splitting a chain at a final element. -/
theorem chain_snoc {α : Type} {R : α → α → Prop} :
    ∀ {l : List α} {a b : α},
      List.Chain R a (l ++ [b]) ↔ List.Chain R a l ∧ R (lastD a l) b
  | [], a, b => by simp [List.chain_cons, lastD]
  | c :: l, a, b => by
    rw [List.cons_append, List.chain_cons, List.chain_cons, chain_snoc, lastD_cons, and_assoc]

theorem cycleOk_ne_nil {w : World} {t : Tag} {p : Nat} {rs : List Nat}
    (h : CycleOk w t p rs) : rs ≠ [] := by
  cases rs with
  | nil => exact absurd h (by simp [CycleOk])
  | cons r rs1 => simp

/-- A cycle can be rotated by one position. -/
theorem cycleOk_rot1 {w : World} {t : Tag} {p a : Nat} {l : List Nat}
    (h : CycleOk w t p (a :: l)) : CycleOk w t p (l ++ [a]) := by
  obtain ⟨hc, hw⟩ := h
  cases l with
  | nil => exact ⟨List.Chain.nil, hw⟩
  | cons b l1 =>
    rw [List.chain_cons] at hc
    rw [lastD_cons] at hw
    rw [List.cons_append]
    refine ⟨chain_snoc.2 ⟨hc.2, hw⟩, ?_⟩
    rw [lastD_append_singleton]
    exact hc.1

/-- A cycle can be rotated arbitrarily. -/
theorem cycleOk_rotate {w : World} {t : Tag} {p : Nat} :
    ∀ (xs : List Nat) {ys : List Nat}, CycleOk w t p (xs ++ ys) → CycleOk w t p (ys ++ xs)
  | [], ys, h => by simpa using h
  | a :: xs, ys, h => by
    have h1 : CycleOk w t p ((xs ++ ys) ++ [a]) := cycleOk_rot1 (by simpa using h)
    have h2 : CycleOk w t p (xs ++ (ys ++ [a])) := by simpa [List.append_assoc] using h1
    have h3 := cycleOk_rotate xs h2
    simpa [List.append_assoc] using h3

/-- Every member of a sibling cycle carries a `Child` component pointing at
the common parent. -/
theorem cycleOk_mem_data {w : World} {t : Tag} {p : Nat} {rs : List Nat}
    (h : CycleOk w t p rs) {x : Nat} (hx : x ∈ rs) :
    ∃ d, viewC w t x = some d ∧ d.parent = p := by
  obtain ⟨l1, l2, rfl⟩ := List.append_of_mem hx
  have h1 : CycleOk w t p (x :: (l2 ++ l1)) := by
    have := cycleOk_rotate l1 h
    simpa using this
  obtain ⟨hc, hw⟩ := h1
  cases hl : l2 ++ l1 with
  | nil =>
    rw [hl, lastD] at hw
    obtain ⟨d, hd, hp, _⟩ := hw.1
    exact ⟨d, hd, hp⟩
  | cons b l3 =>
    rw [hl, List.chain_cons] at hc
    obtain ⟨d, hd, hp, _⟩ := hc.1.1
    exact ⟨d, hd, hp⟩

theorem childrenRun_succ {w : World} {t : Tag} {n current : Nat} {d : Child}
    (hd : viewC w t current = some d) :
    childrenRun w t (n + 1) (some current) = current :: childrenRun w t n (some d.next) := by
  simp only [childrenRun, hd]

/-- Walking `next` pointers along an adjacency chain yields exactly the
chain, provided the final member also resolves. -/
theorem childrenRun_chain {w : World} {t : Tag} {p : Nat} :
    ∀ {l : List Nat} {a : Nat}, List.Chain (Adj w t p) a l →
    (∃ d, viewC w t (lastD a l) = some d) →
    childrenRun w t (l.length + 1) (some a) = a :: l
  | [], a, _, hlast => by
    obtain ⟨d, hd⟩ := hlast
    rw [lastD] at hd
    rw [childrenRun_succ hd]
    rfl
  | b :: l, a, h, hlast => by
    rw [List.chain_cons] at h
    obtain ⟨d, hd, _, hn⟩ := h.1.1
    have ih := childrenRun_chain h.2 (by rwa [lastD_cons] at hlast)
    rw [List.length_cons, childrenRun_succ hd, hn, ih]

/-- Walking the cycle of `p` starting after the member `x` yields every
member exactly once, ending with `x`. -/
theorem cycleOk_run_from {w : World} {t : Tag} {p : Nat} {D1 D2 : List Nat} {x : Nat}
    (h : CycleOk w t p (D1 ++ x :: D2)) {dx : Child} (hdx : viewC w t x = some dx) :
    childrenRun w t (D1 ++ x :: D2).length (some dx.next) = D2 ++ D1 ++ [x] := by
  have h1 : CycleOk w t p (x :: (D2 ++ D1)) := by
    have := cycleOk_rotate D1 h
    simpa using this
  have h2 : CycleOk w t p ((D2 ++ D1) ++ [x]) := cycleOk_rot1 h1
  have hne : (D2 ++ D1) ++ [x] ≠ [] := by simp
  obtain ⟨m, M1, hM⟩ := List.exists_cons_of_ne_nil hne
  rw [hM] at h2
  obtain ⟨hc, hw⟩ := h2
  have hlastx : lastD m M1 = x := lastD_of_append_singleton_eq hM
  have hnext : dx.next = m := by
    rw [hlastx] at hw
    obtain ⟨d, hd, _, hn⟩ := hw.1
    rw [hdx] at hd
    rw [← hn, Option.some.inj hd]
  have hrun : childrenRun w t (M1.length + 1) (some m) = m :: M1 :=
    childrenRun_chain hc ⟨dx, by rw [hlastx]; exact hdx⟩
  have hlen : (D1 ++ x :: D2).length = M1.length + 1 := by
    have h3 : ((D2 ++ D1) ++ [x]).length = (m :: M1).length := by rw [hM]
    simp at h3
    simp [List.length_append]
    omega
  rw [hlen, hnext, hrun, ← hM]

end HecsHierarchy

namespace HecsHierarchy

/-! ## Lookup / update laws of the world model -/

theorem alive_setP (w : World) (t : Tag) (e : Nat) (v : Parent) :
    (setP w t e v).alive = w.alive := rfl

theorem alive_setC (w : World) (t : Tag) (e : Nat) (v : Child) :
    (setC w t e v).alive = w.alive := rfl

theorem viewP_setP_self {w : World} {t : Tag} {e : Nat} (v : Parent) (h : e ∈ w.alive) :
    viewP (setP w t e v) t e = some v := by
  simp [viewP, setP, h]

theorem viewP_setP_ne {w : World} {t t1 : Tag} {e e1 : Nat} (v : Parent)
    (h : ¬(t1 = t ∧ e1 = e)) : viewP (setP w t e v) t1 e1 = viewP w t1 e1 := by
  simp [viewP, setP, h]

theorem viewC_setP (w : World) (t t1 : Tag) (e e1 : Nat) (v : Parent) :
    viewC (setP w t e v) t1 e1 = viewC w t1 e1 := rfl

theorem viewP_setC (w : World) (t t1 : Tag) (e e1 : Nat) (v : Child) :
    viewP (setC w t e v) t1 e1 = viewP w t1 e1 := rfl

theorem viewC_setC_self {w : World} {t : Tag} {e : Nat} (v : Child) (h : e ∈ w.alive) :
    viewC (setC w t e v) t e = some v := by
  simp [viewC, setC, h]

theorem viewC_setC_ne {w : World} {t t1 : Tag} {e e1 : Nat} (v : Child)
    (h : ¬(t1 = t ∧ e1 = e)) : viewC (setC w t e v) t1 e1 = viewC w t1 e1 := by
  simp [viewC, setC, h]

theorem tryGetC_ok_iff {w : World} {t : Tag} {e : Nat} {d : Child} :
    tryGetC w t e = .ok d ↔ viewC w t e = some d := by
  unfold tryGetC viewC
  by_cases h : e ∈ w.alive
  · simp only [h, if_true]
    cases w.cComp t e <;> simp
  · simp [h]

theorem tryGetP_ok_iff {w : World} {t : Tag} {e : Nat} {v : Parent} :
    tryGetP w t e = .ok v ↔ viewP w t e = some v := by
  unfold tryGetP viewP
  by_cases h : e ∈ w.alive
  · simp only [h, if_true]
    cases w.pComp t e <;> simp
  · simp [h]

theorem tryGetP_not_ok {w : World} {t : Tag} {e : Nat} (h : viewP w t e = none) :
    ∀ v, tryGetP w t e ≠ .ok v := by
  intro v hv
  rw [tryGetP_ok_iff] at hv
  rw [h] at hv
  exact Option.noConfusion hv

/-! ## Well-formed nodes, trees and forests -/

/-- The component data of entity `e` matches a child list `rs`: no
`Parent` component when childless, otherwise an exact count, the last
child as boundary, and a well-formed sibling cycle. -/
def NodeOk (w : World) (t : Tag) (e : Nat) (rs : List Nat) : Prop :=
  e ∈ w.alive ∧
  match rs with
  | [] => viewP w t e = none
  | r :: rs1 =>
    viewP w t e = some ⟨(r :: rs1).length, lastD r rs1⟩ ∧ CycleOk w t e (r :: rs1)

mutual
/-- Every node of the tree matches its child list. -/
def TreOk (w : World) (t : Tag) : Tre → Prop
  | .node e ks => NodeOk w t e (Fst.rootsOf ks) ∧ FstOk w t ks

/-- Every node of the forest matches its child list. -/
def FstOk (w : World) (t : Tag) : Fst → Prop
  | .nil => True
  | .cons tr ts => TreOk w t tr ∧ FstOk w t ts
end

theorem rootsOf_subset_nodes : ∀ (ks : Fst), ∀ x ∈ Fst.rootsOf ks, x ∈ Fst.nodes ks
  | .nil, x, hx => by simp [Fst.rootsOf] at hx
  | .cons (.node e eks) ts, x, hx => by
    simp only [Fst.rootsOf, Tre.root, List.mem_cons] at hx
    simp only [Fst.nodes, Tre.nodes, List.mem_append, List.mem_cons]
    rcases hx with rfl | hx
    · exact Or.inl (Or.inl rfl)
    · exact Or.inr (rootsOf_subset_nodes ts x hx)

theorem kids_nodes_subset : ∀ (tr : Tre), ∀ x ∈ Fst.nodes tr.kids, x ∈ tr.nodes
  | .node e ks, x, hx => by
    simp only [Tre.kids] at hx
    simp only [Tre.nodes, List.mem_cons]
    exact Or.inr hx

theorem root_mem_nodes : ∀ (tr : Tre), tr.root ∈ tr.nodes
  | .node e ks => by simp [Tre.root, Tre.nodes]

/-- Pointwise transfer of an adjacency. -/
theorem Adj_frame {w w1 : World} {t : Tag} {p x y : Nat}
    (hx : viewC w1 t x = viewC w t x) (hy : viewC w1 t y = viewC w t y)
    (h : Adj w t p x y) : Adj w1 t p x y := by
  obtain ⟨⟨d1, hd1, h1⟩, ⟨d2, hd2, h2⟩⟩ := h
  exact ⟨⟨d1, by rw [hx]; exact hd1, h1⟩, ⟨d2, by rw [hy]; exact hd2, h2⟩⟩

theorem chain_imp_mem {α : Type} {R S : α → α → Prop} :
    ∀ {l : List α} {a : α}, List.Chain R a l →
      (∀ x ∈ a :: l, ∀ y ∈ a :: l, R x y → S x y) → List.Chain S a l
  | [], _, _, _ => List.Chain.nil
  | b :: l, a, h, hm => by
    rw [List.chain_cons] at h ⊢
    refine ⟨hm a (by simp) b (by simp) h.1, ?_⟩
    exact chain_imp_mem h.2 (fun x hx y hy hr => hm x (by
        rcases List.mem_cons.1 hx with rfl | hx
        · simp
        · simp [hx]) y (by
        rcases List.mem_cons.1 hy with rfl | hy
        · simp
        · simp [hy]) hr)

/-- A sibling cycle survives any world update that leaves the `Child`
components of its members untouched. -/
theorem cycleOk_frame {w w1 : World} {t : Tag} {p : Nat} {rs : List Nat}
    (h : CycleOk w t p rs) (hc : ∀ x ∈ rs, viewC w1 t x = viewC w t x) :
    CycleOk w1 t p rs := by
  cases rs with
  | nil => exact absurd h (by simp [CycleOk])
  | cons r rs1 =>
    obtain ⟨hch, hw⟩ := h
    refine ⟨chain_imp_mem hch (fun x hx y hy hr => Adj_frame (hc x hx) (hc y hy) hr), ?_⟩
    exact Adj_frame (hc _ (lastD_mem rs1 r)) (hc r (by simp)) hw

theorem NodeOk_frame {w w1 : World} {t : Tag} {e : Nat} {rs : List Nat}
    (h : NodeOk w t e rs) (ha : e ∈ w1.alive ↔ e ∈ w.alive)
    (hp : viewP w1 t e = viewP w t e)
    (hc : ∀ x ∈ rs, viewC w1 t x = viewC w t x) : NodeOk w1 t e rs := by
  obtain ⟨hal, hrest⟩ := h
  refine ⟨ha.2 hal, ?_⟩
  cases rs with
  | nil => simpa [hp] using hrest
  | cons r rs1 =>
    exact ⟨by rw [hp]; exact hrest.1, cycleOk_frame hrest.2 hc⟩

mutual
/-- A well-formed tree survives any world update that leaves its nodes'
data untouched (the root's own `Child` component is not read). -/
theorem TreOk_frame {w w1 : World} {t : Tag} :
    ∀ {tr : Tre}, TreOk w t tr →
    (∀ x ∈ tr.nodes, (x ∈ w1.alive ↔ x ∈ w.alive)) →
    (∀ x ∈ tr.nodes, viewP w1 t x = viewP w t x) →
    (∀ x ∈ Fst.nodes tr.kids, viewC w1 t x = viewC w t x) →
    TreOk w1 t tr
  | .node e ks, h, ha, hp, hc => by
    rw [TreOk] at h ⊢
    refine ⟨NodeOk_frame h.1 (ha e (by simp [Tre.nodes])) (hp e (by simp [Tre.nodes]))
      (fun x hx => hc x (by simpa [Tre.kids] using rootsOf_subset_nodes ks x hx)), ?_⟩
    exact FstOk_frame h.2
      (fun x hx => ha x (by simp [Tre.nodes, hx]))
      (fun x hx => hp x (by simp [Tre.nodes, hx]))
      (fun x hx => hc x (by simpa [Tre.kids] using hx))

/-- A well-formed forest survives any world update that leaves its nodes'
data untouched. -/
theorem FstOk_frame {w w1 : World} {t : Tag} :
    ∀ {ks : Fst}, FstOk w t ks →
    (∀ x ∈ Fst.nodes ks, (x ∈ w1.alive ↔ x ∈ w.alive)) →
    (∀ x ∈ Fst.nodes ks, viewP w1 t x = viewP w t x) →
    (∀ x ∈ Fst.nodes ks, viewC w1 t x = viewC w t x) →
    FstOk w1 t ks
  | .nil, _, _, _, _ => trivial
  | .cons tr ts, h, ha, hp, hc => by
    rw [FstOk] at h ⊢
    refine ⟨TreOk_frame h.1
      (fun x hx => ha x (by simp [Fst.nodes, hx]))
      (fun x hx => hp x (by simp [Fst.nodes, hx]))
      (fun x hx => hc x (by simp [Fst.nodes, kids_nodes_subset tr x hx])), ?_⟩
    exact FstOk_frame h.2
      (fun x hx => ha x (by simp [Fst.nodes, hx]))
      (fun x hx => hp x (by simp [Fst.nodes, hx]))
      (fun x hx => hc x (by simp [Fst.nodes, hx]))
end

end HecsHierarchy

namespace HecsHierarchy

/-! ## Locating nodes in forests -/

mutual
theorem kidsAtT_mem : ∀ {tr : Tre} {p : Nat} {ks : Fst}, KidsAtT tr p ks →
    p ∈ tr.nodes ∧ ∀ x ∈ Fst.nodes ks, x ∈ tr.nodes
  | .node e ks0, p, ks, h => by
    cases h with
    | here =>
      exact ⟨by simp [Tre.nodes], fun x hx => by simp [Tre.nodes, hx]⟩
    | deeper h1 =>
      obtain ⟨hp, hsub⟩ := kidsAtF_mem h1
      exact ⟨by simp [Tre.nodes, hp], fun x hx => by simp [Tre.nodes, hsub x hx]⟩

theorem kidsAtF_mem : ∀ {F : Fst} {p : Nat} {ks : Fst}, KidsAtF F p ks →
    p ∈ Fst.nodes F ∧ ∀ x ∈ Fst.nodes ks, x ∈ Fst.nodes F
  | .cons tr ts, p, ks, h => by
    cases h with
    | head h1 =>
      obtain ⟨hp, hsub⟩ := kidsAtT_mem h1
      exact ⟨by simp [Fst.nodes, hp], fun x hx => by simp [Fst.nodes, hsub x hx]⟩
    | tail h1 =>
      obtain ⟨hp, hsub⟩ := kidsAtF_mem h1
      exact ⟨by simp [Fst.nodes, hp], fun x hx => by simp [Fst.nodes, hsub x hx]⟩
end

mutual
theorem kidsAtT_exists : ∀ {tr : Tre} {p : Nat}, p ∈ tr.nodes → ∃ ks, KidsAtT tr p ks
  | .node e ks0, p, hp => by
    rw [Tre.nodes, List.mem_cons] at hp
    rcases hp with rfl | hp
    · exact ⟨ks0, KidsAtT.here p ks0⟩
    · obtain ⟨ks, h⟩ := kidsAtF_exists hp
      exact ⟨ks, KidsAtT.deeper h⟩

theorem kidsAtF_exists : ∀ {F : Fst} {p : Nat}, p ∈ Fst.nodes F → ∃ ks, KidsAtF F p ks
  | .cons tr ts, p, hp => by
    rw [Fst.nodes, List.mem_append] at hp
    rcases hp with hp | hp
    · obtain ⟨ks, h⟩ := kidsAtT_exists hp
      exact ⟨ks, KidsAtF.head h⟩
    · obtain ⟨ks, h⟩ := kidsAtF_exists hp
      exact ⟨ks, KidsAtF.tail h⟩
end

mutual
theorem kidsAtT_ok {w : World} {t : Tag} : ∀ {tr : Tre} {p : Nat} {ks : Fst},
    TreOk w t tr → KidsAtT tr p ks → NodeOk w t p (Fst.rootsOf ks) ∧ FstOk w t ks
  | .node e ks0, p, ks, hok, h => by
    rw [TreOk] at hok
    cases h with
    | here => exact ⟨hok.1, hok.2⟩
    | deeper h1 => exact kidsAtF_ok hok.2 h1

theorem kidsAtF_ok {w : World} {t : Tag} : ∀ {F : Fst} {p : Nat} {ks : Fst},
    FstOk w t F → KidsAtF F p ks → NodeOk w t p (Fst.rootsOf ks) ∧ FstOk w t ks
  | .cons tr ts, p, ks, hok, h => by
    rw [FstOk] at hok
    cases h with
    | head h1 => exact kidsAtT_ok hok.1 h1
    | tail h1 => exact kidsAtF_ok hok.2 h1
end

mutual
/-- The node block `p :: nodes ks` of a located node is an infix of the
tree's preorder node list. -/
theorem kidsAtT_infixOf : ∀ {tr : Tre} {p : Nat} {ks : Fst}, KidsAtT tr p ks →
    (p :: Fst.nodes ks) <:+: tr.nodes
  | .node e ks0, p, ks, h => by
    cases h with
    | here => exact ⟨[], [], by simp [Tre.nodes]⟩
    | deeper h1 =>
      obtain ⟨s, t1, hst⟩ := kidsAtF_infixOf h1
      exact ⟨e :: s, t1, by simp [Tre.nodes, ← hst]⟩

theorem kidsAtF_infixOf : ∀ {F : Fst} {p : Nat} {ks : Fst}, KidsAtF F p ks →
    (p :: Fst.nodes ks) <:+: Fst.nodes F
  | .cons tr ts, p, ks, h => by
    cases h with
    | head h1 =>
      obtain ⟨s, t1, hst⟩ := kidsAtT_infixOf h1
      exact ⟨s, t1 ++ Fst.nodes ts, by simp [Fst.nodes, ← hst]⟩
    | tail h1 =>
      obtain ⟨s, t1, hst⟩ := kidsAtF_infixOf h1
      exact ⟨tr.nodes ++ s, t1, by simp [Fst.nodes, ← hst]⟩
end

mutual
/-- Inside a tree with duplicate-free nodes, a node's child forest is
unique. -/
theorem kidsAtT_unique : ∀ {tr : Tre} {p : Nat} {a b : Fst}, tr.nodes.Nodup →
    KidsAtT tr p a → KidsAtT tr p b → a = b
  | .node e ks0, p, a, b, hnd, ha, hb => by
    rw [Tre.nodes, List.nodup_cons] at hnd
    cases ha with
    | here =>
      cases hb with
      | here => rfl
      | deeper h1 => exact absurd ((kidsAtF_mem h1).1) hnd.1
    | deeper h1 =>
      cases hb with
      | here => exact absurd ((kidsAtF_mem h1).1) hnd.1
      | deeper h2 => exact kidsAtF_unique hnd.2 h1 h2

theorem kidsAtF_unique : ∀ {F : Fst} {p : Nat} {a b : Fst}, (Fst.nodes F).Nodup →
    KidsAtF F p a → KidsAtF F p b → a = b
  | .cons tr ts, p, a, b, hnd, ha, hb => by
    rw [Fst.nodes, List.nodup_append] at hnd
    cases ha with
    | head h1 =>
      cases hb with
      | head h2 => exact kidsAtT_unique hnd.1 h1 h2
      | tail h2 => exact (hnd.2.2 (kidsAtT_mem h1).1 (kidsAtF_mem h2).1).elim
    | tail h1 =>
      cases hb with
      | head h2 => exact (hnd.2.2 (kidsAtT_mem h2).1 (kidsAtF_mem h1).1).elim
      | tail h2 => exact kidsAtF_unique hnd.2.1 h1 h2
end

mutual
/-- A location inside a located child forest is a location in the tree. -/
theorem kidsAtT_trans : ∀ {tr : Tre} {q : Nat} {ks : Fst} {p : Nat} {ks1 : Fst},
    KidsAtT tr q ks → KidsAtF ks p ks1 → KidsAtT tr p ks1
  | .node e ks0, q, ks, p, ks1, h, h1 => by
    cases h with
    | here => exact KidsAtT.deeper h1
    | deeper h2 => exact KidsAtT.deeper (kidsAtF_trans h2 h1)

theorem kidsAtF_trans : ∀ {F : Fst} {q : Nat} {ks : Fst} {p : Nat} {ks1 : Fst},
    KidsAtF F q ks → KidsAtF ks p ks1 → KidsAtF F p ks1
  | .cons tr ts, q, ks, p, ks1, h, h1 => by
    cases h with
    | head h2 => exact KidsAtF.head (kidsAtT_trans h2 h1)
    | tail h2 => exact KidsAtF.tail (kidsAtF_trans h2 h1)
end

mutual
/-- Every node of a tree is its root or a child root of a located node. -/
theorem loc_in_tree : ∀ {tr : Tre} {p : Nat}, p ∈ tr.nodes →
    p = tr.root ∨ ∃ q ks, KidsAtT tr q ks ∧ p ∈ Fst.rootsOf ks
  | .node e ks0, p, hp => by
    rw [Tre.nodes, List.mem_cons] at hp
    rcases hp with rfl | hp
    · exact Or.inl rfl
    · rcases loc_in_forest hp with hrt | ⟨q, ks, h1, h2⟩
      · exact Or.inr ⟨e, ks0, KidsAtT.here e ks0, hrt⟩
      · exact Or.inr ⟨q, ks, KidsAtT.deeper h1, h2⟩

theorem loc_in_forest : ∀ {F : Fst} {p : Nat}, p ∈ Fst.nodes F →
    p ∈ Fst.rootsOf F ∨ ∃ q ks, KidsAtF F q ks ∧ p ∈ Fst.rootsOf ks
  | .cons tr ts, p, hp => by
    rw [Fst.nodes, List.mem_append] at hp
    rcases hp with hp | hp
    · rcases loc_in_tree hp with rfl | ⟨q, ks, h1, h2⟩
      · exact Or.inl (by simp [Fst.rootsOf])
      · exact Or.inr ⟨q, ks, KidsAtF.head h1, h2⟩
    · rcases loc_in_forest hp with hrt | ⟨q, ks, h1, h2⟩
      · exact Or.inl (by simp [Fst.rootsOf, hrt])
      · exact Or.inr ⟨q, ks, KidsAtF.tail h1, h2⟩
end

end HecsHierarchy

namespace HecsHierarchy

/-! ## Forest surgery: snoc, getTop, removeTop, addKid -/

theorem nodes_snoc : ∀ (ks : Fst) (tc : Tre),
    Fst.nodes (ks.snoc tc) = Fst.nodes ks ++ tc.nodes
  | .nil, tc => by simp [Fst.snoc, Fst.nodes]
  | .cons t ts, tc => by
    simp [Fst.snoc, Fst.nodes, nodes_snoc ts tc]

theorem rootsOf_snoc : ∀ (ks : Fst) (tc : Tre),
    Fst.rootsOf (ks.snoc tc) = Fst.rootsOf ks ++ [tc.root]
  | .nil, tc => by simp [Fst.snoc, Fst.rootsOf]
  | .cons t ts, tc => by
    simp [Fst.snoc, Fst.rootsOf, rootsOf_snoc ts tc]

theorem getTop_root : ∀ {F : Fst} {c : Nat} {tc : Tre}, Fst.getTop F c = some tc → tc.root = c
  | .nil, c, tc, h => by simp [Fst.getTop] at h
  | .cons t ts, c, tc, h => by
    rw [Fst.getTop] at h
    by_cases he : t.root = c
    · rw [if_pos he] at h
      rw [← Option.some.inj h]
      exact he
    · rw [if_neg he] at h
      exact getTop_root h

theorem getTop_nodes_perm : ∀ {F : Fst} {c : Nat} {tc : Tre}, Fst.getTop F c = some tc →
    (Fst.nodes F).Perm (tc.nodes ++ Fst.nodes (F.removeTop c))
  | .nil, c, tc, h => by simp [Fst.getTop] at h
  | .cons t ts, c, tc, h => by
    rw [Fst.getTop] at h
    by_cases he : t.root = c
    · rw [if_pos he] at h
      rw [Fst.removeTop, if_pos he, Fst.nodes, ← Option.some.inj h]
    · rw [if_neg he] at h
      rw [Fst.removeTop, if_neg he, Fst.nodes, Fst.nodes]
      have h1 : (t.nodes ++ Fst.nodes ts).Perm
          (t.nodes ++ (tc.nodes ++ Fst.nodes (ts.removeTop c))) :=
        List.Perm.append_left _ (getTop_nodes_perm h)
      have h2 : (t.nodes ++ (tc.nodes ++ Fst.nodes (ts.removeTop c))).Perm
          (tc.nodes ++ (t.nodes ++ Fst.nodes (ts.removeTop c))) := by
        rw [← List.append_assoc, ← List.append_assoc]
        exact List.Perm.append_right _ List.perm_append_comm
      exact h1.trans h2

theorem getTop_ok {w : World} {t : Tag} : ∀ {F : Fst} {c : Nat} {tc : Tre},
    FstOk w t F → Fst.getTop F c = some tc → TreOk w t tc ∧ FstOk w t (F.removeTop c)
  | .nil, c, tc, _, h => by simp [Fst.getTop] at h
  | .cons tr ts, c, tc, hok, h => by
    rw [Fst.getTop] at h
    rw [FstOk] at hok
    by_cases he : tr.root = c
    · rw [if_pos he] at h
      rw [Fst.removeTop, if_pos he, ← Option.some.inj h]
      exact ⟨hok.1, hok.2⟩
    · rw [if_neg he] at h
      obtain ⟨h1, h2⟩ := getTop_ok hok.2 h
      rw [Fst.removeTop, if_neg he, FstOk]
      exact ⟨h1, hok.1, h2⟩

theorem rootsOf_removeTop_subset : ∀ {F : Fst} (c : Nat),
    ∀ r ∈ Fst.rootsOf (F.removeTop c), r ∈ Fst.rootsOf F
  | .nil, c, r, h => by simp [Fst.removeTop, Fst.rootsOf] at h
  | .cons t ts, c, r, h => by
    rw [Fst.removeTop] at h
    by_cases he : t.root = c
    · rw [if_pos he] at h
      simp [Fst.rootsOf, h]
    · rw [if_neg he] at h
      rw [Fst.rootsOf, List.mem_cons] at h ⊢
      rcases h with rfl | h
      · exact Or.inl rfl
      · exact Or.inr (rootsOf_removeTop_subset c r h)

theorem getTop_of_mem_roots : ∀ {F : Fst} {c : Nat}, c ∈ Fst.rootsOf F →
    ∃ tc, Fst.getTop F c = some tc
  | .nil, c, h => by simp [Fst.rootsOf] at h
  | .cons t ts, c, h => by
    rw [Fst.rootsOf, List.mem_cons] at h
    by_cases he : t.root = c
    · exact ⟨t, by rw [Fst.getTop, if_pos he]⟩
    · rcases h with h | h
      · exact absurd h.symm he
      · obtain ⟨tc, htc⟩ := getTop_of_mem_roots h
        exact ⟨tc, by rw [Fst.getTop, if_neg he]; exact htc⟩

mutual
theorem addKidT_id : ∀ {tr : Tre} {p : Nat} {tc : Tre}, p ∉ tr.nodes → addKidT tr p tc = tr
  | .node e ks, p, tc, h => by
    rw [Tre.nodes, List.mem_cons] at h
    push_neg at h
    rw [addKidT, if_neg (fun he => h.1 he.symm), addKidF_id h.2]

theorem addKidF_id : ∀ {F : Fst} {p : Nat} {tc : Tre}, p ∉ Fst.nodes F → addKidF F p tc = F
  | .nil, p, tc, _ => rfl
  | .cons t ts, p, tc, h => by
    rw [Fst.nodes, List.mem_append] at h
    push_neg at h
    rw [addKidF, addKidT_id h.1, addKidF_id h.2]
end

mutual
theorem addKidT_nodes_perm : ∀ {tr : Tre} {p : Nat} {tc : Tre}, tr.nodes.Nodup →
    p ∈ tr.nodes → (Tre.nodes (addKidT tr p tc)).Perm (tr.nodes ++ tc.nodes)
  | .node e ks, p, tc, hnd, hp => by
    rw [Tre.nodes, List.nodup_cons] at hnd
    by_cases he : e = p
    · rw [addKidT, if_pos he, Tre.nodes, nodes_snoc, Tre.nodes, List.cons_append]
    · rw [Tre.nodes, List.mem_cons] at hp
      rcases hp with rfl | hp
      · exact absurd rfl he
      · rw [addKidT, if_neg he, Tre.nodes, Tre.nodes, List.cons_append]
        exact List.Perm.cons e (addKidF_nodes_perm hnd.2 hp)

theorem addKidF_nodes_perm : ∀ {F : Fst} {p : Nat} {tc : Tre}, (Fst.nodes F).Nodup →
    p ∈ Fst.nodes F → (Fst.nodes (addKidF F p tc)).Perm (Fst.nodes F ++ tc.nodes)
  | .cons t ts, p, tc, hnd, hp => by
    rw [Fst.nodes, List.nodup_append] at hnd
    rw [Fst.nodes, List.mem_append] at hp
    rw [addKidF, Fst.nodes, Fst.nodes]
    rcases hp with hp | hp
    · have hnotts : p ∉ Fst.nodes ts := fun hmem => hnd.2.2 hp hmem
      rw [addKidF_id hnotts, List.append_assoc]
      have h1 : (Tre.nodes (addKidT t p tc) ++ Fst.nodes ts).Perm
          ((t.nodes ++ tc.nodes) ++ Fst.nodes ts) :=
        List.Perm.append_right _ (addKidT_nodes_perm hnd.1 hp)
      have h2 : ((t.nodes ++ tc.nodes) ++ Fst.nodes ts).Perm
          (t.nodes ++ (Fst.nodes ts ++ tc.nodes)) := by
        rw [List.append_assoc]
        exact List.Perm.append_left _ List.perm_append_comm
      exact h1.trans h2
    · have hnott : p ∉ t.nodes := fun hmem => hnd.2.2 hmem hp
      rw [addKidT_id hnott, List.append_assoc]
      exact List.Perm.append_left _ (addKidF_nodes_perm hnd.2.1 hp)
end

theorem rootsOf_addKidF : ∀ (F : Fst) (p : Nat) (tc : Tre),
    Fst.rootsOf (addKidF F p tc) = Fst.rootsOf F
  | .nil, _, _ => rfl
  | .cons t ts, p, tc => by
    obtain ⟨e, ks⟩ := t
    rw [addKidF, Fst.rootsOf, Fst.rootsOf, rootsOf_addKidF ts p tc, addKidT]
    by_cases he : e = p
    · rw [if_pos he]
      rfl
    · rw [if_neg he]
      rfl

end HecsHierarchy

namespace HecsHierarchy

mutual
theorem kidsAtT_nodes_sub_kids : ∀ {tr : Tre} {q : Nat} {ks : Fst}, KidsAtT tr q ks →
    ∀ y ∈ Fst.nodes ks, y ∈ Fst.nodes tr.kids
  | .node e ks0, q, ks, h, y, hy => by
    cases h with
    | here => simpa [Tre.kids] using hy
    | deeper h1 =>
      simp only [Tre.kids]
      exact (kidsAtF_mem h1).2 y hy

theorem kidsAtF_nodes_sub : ∀ {F : Fst} {q : Nat} {ks : Fst}, KidsAtF F q ks →
    ∀ y ∈ Fst.nodes ks, y ∈ Fst.nodes F
  | .cons tr ts, q, ks, h, y, hy => (kidsAtF_mem h).2 y hy
end

/-- In a duplicate-free forest, a top-level root is never the child of a
located node. -/
theorem roots_vs_deep : ∀ {F : Fst} {x q : Nat} {ks : Fst}, (Fst.nodes F).Nodup →
    x ∈ Fst.rootsOf F → KidsAtF F q ks → x ∈ Fst.rootsOf ks → False
  | .cons t ts, x, q, ks, hnd, hx, h, hxk => by
    rw [Fst.nodes, List.nodup_append] at hnd
    rw [Fst.rootsOf, List.mem_cons] at hx
    have hxks : x ∈ Fst.nodes ks := rootsOf_subset_nodes ks x hxk
    cases h with
    | head h1 =>
      have hxt : x ∈ Fst.nodes t.kids := kidsAtT_nodes_sub_kids h1 x hxks
      rcases hx with rfl | hx
      · obtain ⟨e, ks0⟩ := t
        rw [Tre.kids] at hxt
        have : (Tre.node e ks0).nodes.Nodup := hnd.1
        rw [Tre.nodes, List.nodup_cons] at this
        exact this.1 (by simpa [Tre.root] using hxt)
      · exact hnd.2.2 (kids_nodes_subset t x hxt) (rootsOf_subset_nodes ts x hx)
    | tail h1 =>
      have hxts : x ∈ Fst.nodes ts := kidsAtF_nodes_sub h1 x hxks
      rcases hx with rfl | hx
      · exact hnd.2.2 (root_mem_nodes t) hxts
      · exact roots_vs_deep hnd.2.1 hx h1 hxk

mutual
/-- In a duplicate-free tree, an entity is the child of at most one node. -/
theorem edge_uniqueT : ∀ {tr : Tre} {q1 q2 x : Nat} {ks1 ks2 : Fst}, tr.nodes.Nodup →
    KidsAtT tr q1 ks1 → KidsAtT tr q2 ks2 →
    x ∈ Fst.rootsOf ks1 → x ∈ Fst.rootsOf ks2 → q1 = q2
  | .node e ks0, q1, q2, x, ks1, ks2, hnd, h1, h2, hx1, hx2 => by
    rw [Tre.nodes, List.nodup_cons] at hnd
    cases h1 with
    | here =>
      cases h2 with
      | here => rfl
      | deeper h3 => exact (roots_vs_deep hnd.2 hx1 h3 hx2).elim
    | deeper h3 =>
      cases h2 with
      | here => exact (roots_vs_deep hnd.2 hx2 h3 hx1).elim
      | deeper h4 => exact edge_uniqueF hnd.2 h3 h4 hx1 hx2

/-- In a duplicate-free forest, an entity is the child of at most one node. -/
theorem edge_uniqueF : ∀ {F : Fst} {q1 q2 x : Nat} {ks1 ks2 : Fst}, (Fst.nodes F).Nodup →
    KidsAtF F q1 ks1 → KidsAtF F q2 ks2 →
    x ∈ Fst.rootsOf ks1 → x ∈ Fst.rootsOf ks2 → q1 = q2
  | .cons t ts, q1, q2, x, ks1, ks2, hnd, h1, h2, hx1, hx2 => by
    rw [Fst.nodes, List.nodup_append] at hnd
    cases h1 with
    | head h3 =>
      cases h2 with
      | head h4 => exact edge_uniqueT hnd.1 h3 h4 hx1 hx2
      | tail h4 =>
        exact (hnd.2.2
          (kids_nodes_subset t x (kidsAtT_nodes_sub_kids h3 x (rootsOf_subset_nodes ks1 x hx1)))
          (kidsAtF_nodes_sub h4 x (rootsOf_subset_nodes ks2 x hx2))).elim
    | tail h3 =>
      cases h2 with
      | head h4 =>
        exact (hnd.2.2
          (kids_nodes_subset t x (kidsAtT_nodes_sub_kids h4 x (rootsOf_subset_nodes ks2 x hx2)))
          (kidsAtF_nodes_sub h3 x (rootsOf_subset_nodes ks1 x hx1))).elim
      | tail h4 => exact edge_uniqueF hnd.2.1 h3 h4 hx1 hx2
end

mutual
theorem treOk_of_forall {w : World} {t : Tag} : ∀ {tr : Tre},
    (∀ q ks, KidsAtT tr q ks → NodeOk w t q (Fst.rootsOf ks)) → TreOk w t tr
  | .node e ks0, h => by
    rw [TreOk]
    refine ⟨h e ks0 (KidsAtT.here e ks0), ?_⟩
    exact fstOk_of_forall (fun q ks hq => h q ks (KidsAtT.deeper hq))

theorem fstOk_of_forall {w : World} {t : Tag} : ∀ {F : Fst},
    (∀ q ks, KidsAtF F q ks → NodeOk w t q (Fst.rootsOf ks)) → FstOk w t F
  | .nil, _ => trivial
  | .cons tr ts, h => by
    rw [FstOk]
    refine ⟨treOk_of_forall (fun q ks hq => h q ks (KidsAtF.head hq)), ?_⟩
    exact fstOk_of_forall (fun q ks hq => h q ks (KidsAtF.tail hq))
end

theorem kidsAt_snoc_inv : ∀ {ks : Fst} {tc : Tre} {q : Nat} {ks1 : Fst},
    KidsAtF (ks.snoc tc) q ks1 → KidsAtF ks q ks1 ∨ KidsAtT tc q ks1
  | .nil, tc, q, ks1, h => by
    rw [Fst.snoc] at h
    cases h with
    | head h1 => exact Or.inr h1
    | tail h1 => cases h1
  | .cons t ts, tc, q, ks1, h => by
    rw [Fst.snoc] at h
    cases h with
    | head h1 => exact Or.inl (KidsAtF.head h1)
    | tail h1 =>
      rcases kidsAt_snoc_inv h1 with h2 | h2
      · exact Or.inl (KidsAtF.tail h2)
      · exact Or.inr h2

mutual
/-- Inversion of locations in a forest after `addKid`: the location is the
modified node `p` itself, an unmodified node of the original forest (same
child roots), or a node of the attached tree. -/
theorem kidsAt_addKidT_inv : ∀ {tr : Tre} {p : Nat} {tc : Tre} {q : Nat} {ks1 : Fst},
    tr.nodes.Nodup → p ∉ tc.nodes →
    KidsAtT (addKidT tr p tc) q ks1 →
    (q = p ∧ ∃ ksP, KidsAtT tr p ksP ∧ ks1 = ksP.snoc tc)
    ∨ (q ≠ p ∧ ∃ ksq, KidsAtT tr q ksq ∧ Fst.rootsOf ks1 = Fst.rootsOf ksq)
    ∨ KidsAtT tc q ks1
  | .node e ks0, p, tc, q, ks1, hnd, hptc, h => by
    rw [Tre.nodes, List.nodup_cons] at hnd
    by_cases he : e = p
    · rw [addKidT, if_pos he] at h
      subst he
      cases h with
      | here => exact Or.inl ⟨rfl, ks0, KidsAtT.here e ks0, rfl⟩
      | deeper h1 =>
        rcases kidsAt_snoc_inv h1 with h2 | h2
        · refine Or.inr (Or.inl ⟨?_, ks1, KidsAtT.deeper h2, rfl⟩)
          intro hq
          subst hq
          exact hnd.1 (kidsAtF_mem h2).1
        · exact Or.inr (Or.inr h2)
    · rw [addKidT, if_neg he] at h
      cases h with
      | here =>
        exact Or.inr (Or.inl ⟨fun hq => he hq, ks0, KidsAtT.here e ks0,
          rootsOf_addKidF ks0 p tc⟩)
      | deeper h1 =>
        rcases kidsAt_addKidF_inv hnd.2 hptc h1 with h2 | h2 | h2
        · exact Or.inl ⟨h2.1, h2.2.choose, KidsAtT.deeper h2.2.choose_spec.1,
            h2.2.choose_spec.2⟩
        · exact Or.inr (Or.inl ⟨h2.1, h2.2.choose, KidsAtT.deeper h2.2.choose_spec.1,
            h2.2.choose_spec.2⟩)
        · exact Or.inr (Or.inr h2)

theorem kidsAt_addKidF_inv : ∀ {F : Fst} {p : Nat} {tc : Tre} {q : Nat} {ks1 : Fst},
    (Fst.nodes F).Nodup → p ∉ tc.nodes →
    KidsAtF (addKidF F p tc) q ks1 →
    (q = p ∧ ∃ ksP, KidsAtF F p ksP ∧ ks1 = ksP.snoc tc)
    ∨ (q ≠ p ∧ ∃ ksq, KidsAtF F q ksq ∧ Fst.rootsOf ks1 = Fst.rootsOf ksq)
    ∨ KidsAtT tc q ks1
  | .cons t ts, p, tc, q, ks1, hnd, hptc, h => by
    rw [Fst.nodes, List.nodup_append] at hnd
    rw [addKidF] at h
    cases h with
    | head h1 =>
      rcases kidsAt_addKidT_inv hnd.1 hptc h1 with h2 | h2 | h2
      · exact Or.inl ⟨h2.1, h2.2.choose, KidsAtF.head h2.2.choose_spec.1,
          h2.2.choose_spec.2⟩
      · exact Or.inr (Or.inl ⟨h2.1, h2.2.choose, KidsAtF.head h2.2.choose_spec.1,
          h2.2.choose_spec.2⟩)
      · exact Or.inr (Or.inr h2)
    | tail h1 =>
      rcases kidsAt_addKidF_inv hnd.2.1 hptc h1 with h2 | h2 | h2
      · exact Or.inl ⟨h2.1, h2.2.choose, KidsAtF.tail h2.2.choose_spec.1,
          h2.2.choose_spec.2⟩
      · exact Or.inr (Or.inl ⟨h2.1, h2.2.choose, KidsAtF.tail h2.2.choose_spec.1,
          h2.2.choose_spec.2⟩)
      · exact Or.inr (Or.inr h2)
end

theorem getTop_mem_roots : ∀ {F : Fst} {c : Nat} {tc : Tre},
    Fst.getTop F c = some tc → c ∈ Fst.rootsOf F
  | .nil, c, tc, h => by simp [Fst.getTop] at h
  | .cons t ts, c, tc, h => by
    rw [Fst.getTop] at h
    by_cases he : t.root = c
    · simp [Fst.rootsOf, he]
    · rw [if_neg he] at h
      rw [Fst.rootsOf, List.mem_cons]
      exact Or.inr (getTop_mem_roots h)

end HecsHierarchy

namespace HecsHierarchy

theorem viewC_some_alive {w : World} {t : Tag} {e : Nat} {d : Child}
    (h : viewC w t e = some d) : e ∈ w.alive := by
  by_contra hc
  rw [viewC, if_neg hc] at h
  exact Option.noConfusion h

theorem viewP_some_alive {w : World} {t : Tag} {e : Nat} {v : Parent}
    (h : viewP w t e = some v) : e ∈ w.alive := by
  by_contra hc
  rw [viewP, if_neg hc] at h
  exact Option.noConfusion h

/-- Execution of `attach` when the parent already has a `Parent<T>`
component whose boundary child `last` resolves, with first child `r`:
the call succeeds and performs exactly the splice of `c` at the tail. -/
theorem attach_exec_existing {w : World} {t : Tag} {c p n last r : Nat} {dlast dr : Child}
    (hpal : p ∈ w.alive) (hcal : c ∈ w.alive)
    (hvP : viewP w t p = some ⟨n, last⟩)
    (hdl : viewC w t last = some dlast) (hdlp : dlast.parent = p) (hnxt : dlast.next = r)
    (hdr : viewC w t r = some dr) (hdrp : dr.parent = p)
    (hcl : c ≠ last) (hcr : c ≠ r) :
    (attach w t c p).1 = .ok c ∧
    (attach w t c p).2.alive = w.alive ∧
    (attach w t c p).2.nextId = w.nextId ∧
    viewP (attach w t c p).2 t p = some ⟨n + 1, c⟩ ∧
    (∀ t1 x, ¬(t1 = t ∧ x = p) → (attach w t c p).2.pComp t1 x = w.pComp t1 x) ∧
    viewC (attach w t c p).2 t c = some ⟨p, r, last⟩ ∧
    (∀ t1 x, ¬(t1 = t ∧ (x = last ∨ x = r ∨ x = c)) →
      (attach w t c p).2.cComp t1 x = w.cComp t1 x) ∧
    (∀ x, x ≠ last → x ≠ c → nextParent (attach w t c p).2 t x = nextParent w t x) ∧
    (∀ x, x ≠ r → x ≠ c → prevParent (attach w t c p).2 t x = prevParent w t x) ∧
    LinkN (attach w t c p).2 t p last c ∧ LinkP (attach w t c p).2 t p last c ∧
    LinkN (attach w t c p).2 t p c r ∧ LinkP (attach w t c p).2 t p c r := by
  have hral : r ∈ w.alive := viewC_some_alive hdr
  have hP : tryGetP w t p = .ok ⟨n, last⟩ := tryGetP_ok_iff.2 hvP
  have h2 : tryGetC (setP w t p ⟨n + 1, c⟩) t last = .ok dlast :=
    tryGetC_ok_iff.2 (by rw [viewC_setP]; exact hdl)
  by_cases hrl : r = last
  · -- `last` is its own first child: the sole-child case `r = last`
    subst hrl
    have hdreq : dr = dlast := Option.some.inj (hdr.symm.trans hdl)
    subst hdreq
    have h3 : tryGetC
        (setC (setP w t p ⟨n + 1, c⟩) t r { parent := dr.parent, next := c, prev := dr.prev })
        t r = .ok { parent := dr.parent, next := c, prev := dr.prev } :=
      tryGetC_ok_iff.2 (viewC_setC_self _ hral)
    have key : attach w t c p = (.ok c,
        setC (setC (setC (setP w t p ⟨n + 1, c⟩) t r
            { parent := dr.parent, next := c, prev := dr.prev }) t r
            { parent := dr.parent, next := c, prev := c }) t c
            { parent := p, next := r, prev := r }) := by
      unfold attach
      rw [hP]
      dsimp only
      rw [h2]
      dsimp only
      rw [hnxt, h3]
      dsimp only
      rw [if_pos (show c ∈ (setC (setC (setP w t p ⟨n + 1, c⟩) t r
          { parent := dr.parent, next := c, prev := dr.prev }) t r
          { parent := dr.parent, next := c, prev := c }).alive from hcal)]
    rw [key]
    have hvc : viewC (setC (setC (setC (setP w t p ⟨n + 1, c⟩) t r
        { parent := dr.parent, next := c, prev := dr.prev }) t r
        { parent := dr.parent, next := c, prev := c }) t c
        { parent := p, next := r, prev := r }) t c = some { parent := p, next := r, prev := r } :=
      viewC_setC_self _ hcal
    have hvr : viewC (setC (setC (setC (setP w t p ⟨n + 1, c⟩) t r
        { parent := dr.parent, next := c, prev := dr.prev }) t r
        { parent := dr.parent, next := c, prev := c }) t c
        { parent := p, next := r, prev := r }) t r = some { parent := dr.parent, next := c, prev := c } := by
      rw [viewC_setC_ne _ (fun hh => hcr hh.2.symm)]
      exact viewC_setC_self _ hral
    refine ⟨rfl, rfl, rfl, viewP_setP_self _ hpal, ?_, hvc, ?_, ?_, ?_, ?_, ?_, ?_, ?_⟩
    · intro t1 x hx
      simp only [setC, setP]
      rw [if_neg hx]
    · intro t1 x hx
      have n1 : ¬(t1 = t ∧ x = c) := fun hh => hx ⟨hh.1, Or.inr (Or.inr hh.2)⟩
      have n2 : ¬(t1 = t ∧ x = r) := fun hh => hx ⟨hh.1, Or.inr (Or.inl hh.2)⟩
      simp only [setC, setP]
      rw [if_neg n1, if_neg n2, if_neg n2]
    · intro x hxl hxc
      rw [nextParent, nextParent,
        viewC_setC_ne _ (fun hh => hxc hh.2), viewC_setC_ne _ (fun hh => hxl hh.2),
        viewC_setC_ne _ (fun hh => hxl hh.2), viewC_setP]
    · intro x hxr hxc
      rw [prevParent, prevParent,
        viewC_setC_ne _ (fun hh => hxc hh.2), viewC_setC_ne _ (fun hh => hxr hh.2),
        viewC_setC_ne _ (fun hh => hxr hh.2), viewC_setP]
    · exact ⟨_, hvr, hdrp, rfl⟩
    · exact ⟨_, hvc, rfl, rfl⟩
    · exact ⟨_, hvc, rfl, rfl⟩
    · exact ⟨_, hvr, hdrp, rfl⟩
  · -- distinct first and last children
    have hlr : ¬(t = t ∧ r = last) := fun hh => hrl hh.2
    have h3 : tryGetC
        (setC (setP w t p ⟨n + 1, c⟩) t last
          { parent := dlast.parent, next := c, prev := dlast.prev }) t r = .ok dr :=
      tryGetC_ok_iff.2 (by rw [viewC_setC_ne _ hlr, viewC_setP]; exact hdr)
    have key : attach w t c p = (.ok c,
        setC (setC (setC (setP w t p ⟨n + 1, c⟩) t last
            { parent := dlast.parent, next := c, prev := dlast.prev }) t r
            { parent := dr.parent, next := dr.next, prev := c }) t c
            { parent := p, next := r, prev := last }) := by
      unfold attach
      rw [hP]
      dsimp only
      rw [h2]
      dsimp only
      rw [hnxt, h3]
      dsimp only
      rw [if_pos (show c ∈ (setC (setC (setP w t p ⟨n + 1, c⟩) t last
          { parent := dlast.parent, next := c, prev := dlast.prev }) t r
          { parent := dr.parent, next := dr.next, prev := c }).alive from hcal)]
    rw [key]
    have hlal : last ∈ w.alive := viewC_some_alive hdl
    have hvc : viewC (setC (setC (setC (setP w t p ⟨n + 1, c⟩) t last
        { parent := dlast.parent, next := c, prev := dlast.prev }) t r
        { parent := dr.parent, next := dr.next, prev := c }) t c
        { parent := p, next := r, prev := last }) t c = some { parent := p, next := r, prev := last } :=
      viewC_setC_self _ hcal
    have hvr : viewC (setC (setC (setC (setP w t p ⟨n + 1, c⟩) t last
        { parent := dlast.parent, next := c, prev := dlast.prev }) t r
        { parent := dr.parent, next := dr.next, prev := c }) t c
        { parent := p, next := r, prev := last }) t r = some { parent := dr.parent, next := dr.next, prev := c } := by
      rw [viewC_setC_ne _ (fun hh => hcr hh.2.symm)]
      exact viewC_setC_self _ hral
    have hvl : viewC (setC (setC (setC (setP w t p ⟨n + 1, c⟩) t last
        { parent := dlast.parent, next := c, prev := dlast.prev }) t r
        { parent := dr.parent, next := dr.next, prev := c }) t c
        { parent := p, next := r, prev := last }) t last = some { parent := dlast.parent, next := c, prev := dlast.prev } := by
      rw [viewC_setC_ne _ (fun hh => hcl hh.2.symm), viewC_setC_ne _ (fun hh => hrl hh.2.symm)]
      exact viewC_setC_self _ hlal
    refine ⟨rfl, rfl, rfl, viewP_setP_self _ hpal, ?_, hvc, ?_, ?_, ?_, ?_, ?_, ?_, ?_⟩
    · intro t1 x hx
      simp only [setC, setP]
      rw [if_neg hx]
    · intro t1 x hx
      have n1 : ¬(t1 = t ∧ x = c) := fun hh => hx ⟨hh.1, Or.inr (Or.inr hh.2)⟩
      have n2 : ¬(t1 = t ∧ x = r) := fun hh => hx ⟨hh.1, Or.inr (Or.inl hh.2)⟩
      have n3 : ¬(t1 = t ∧ x = last) := fun hh => hx ⟨hh.1, Or.inl hh.2⟩
      simp only [setC, setP]
      rw [if_neg n1, if_neg n2, if_neg n3]
    · intro x hxl hxc
      by_cases hxr : x = r
      · subst hxr
        rw [nextParent, nextParent, hvr, hdr]
        simp
      · rw [nextParent, nextParent,
          viewC_setC_ne _ (fun hh => hxc hh.2), viewC_setC_ne _ (fun hh => hxr hh.2),
          viewC_setC_ne _ (fun hh => hxl hh.2), viewC_setP]
    · intro x hxr hxc
      by_cases hxl : x = last
      · subst hxl
        rw [prevParent, prevParent, hvl, hdl]
        simp
      · rw [prevParent, prevParent,
          viewC_setC_ne _ (fun hh => hxc hh.2), viewC_setC_ne _ (fun hh => hxr hh.2),
          viewC_setC_ne _ (fun hh => hxl hh.2), viewC_setP]
    · exact ⟨_, hvl, hdlp, rfl⟩
    · exact ⟨_, hvc, rfl, rfl⟩
    · exact ⟨_, hvc, rfl, rfl⟩
    · exact ⟨_, hvr, hdrp, rfl⟩

/-- Execution of `attach` when the parent has no `Parent<T>` component:
the call succeeds and creates a self-looped single-entry cycle. -/
theorem attach_exec_new {w : World} {t : Tag} {c p : Nat}
    (hpal : p ∈ w.alive) (hcal : c ∈ w.alive)
    (hvP : viewP w t p = none) :
    (attach w t c p).1 = .ok c ∧
    (attach w t c p).2.alive = w.alive ∧
    (attach w t c p).2.nextId = w.nextId ∧
    viewP (attach w t c p).2 t p = some ⟨1, c⟩ ∧
    (∀ t1 x, ¬(t1 = t ∧ x = p) → (attach w t c p).2.pComp t1 x = w.pComp t1 x) ∧
    viewC (attach w t c p).2 t c = some ⟨p, c, c⟩ ∧
    (∀ t1 x, ¬(t1 = t ∧ x = c) → (attach w t c p).2.cComp t1 x = w.cComp t1 x) := by
  have hpc : w.pComp t p = none := by
    rw [viewP, if_pos hpal] at hvP
    exact hvP
  have key : attach w t c p = (.ok c, setC (setP w t p ⟨1, c⟩) t c ⟨p, c, c⟩) := by
    unfold attach
    rw [tryGetP, if_pos hpal, hpc]
    dsimp only
    rw [if_pos hpal, if_pos (show c ∈ (setP w t p ⟨1, c⟩).alive from hcal)]
  rw [key]
  refine ⟨rfl, rfl, rfl, viewP_setP_self _ hpal, ?_, viewC_setC_self _ hcal, ?_⟩
  · intro t1 x hx
    simp only [setC, setP]
    rw [if_neg hx]
  · intro t1 x hx
    simp only [setC, setP]
    rw [if_neg hx]

end HecsHierarchy

namespace HecsHierarchy

theorem dropLast_append_lastD {α : Type} :
    ∀ (l : List α) (a : α), (a :: l).dropLast ++ [lastD a l] = a :: l
  | [], a => rfl
  | b :: l1, a => by
    rw [lastD_cons, List.dropLast_cons₂, List.cons_append, dropLast_append_lastD l1 b]

theorem ne_lastD_of_mem_dropLast {α : Type} {l : List α} {a x : α}
    (hnd : (a :: l).Nodup) (hx : x ∈ (a :: l).dropLast) : x ≠ lastD a l := by
  intro he
  subst he
  have hd := dropLast_append_lastD l a
  rw [← hd, List.nodup_append] at hnd
  exact hnd.2.2 hx (by simp)

/-- Splicing a new member `c` at the tail of a sibling cycle. -/
theorem cycle_attach {w w1 : World} {t : Tag} {p c r : Nat} {rs1 : List Nat}
    (h : CycleOk w t p (r :: rs1)) (hnd : (r :: rs1).Nodup)
    (hn : ∀ x ∈ r :: rs1, x ≠ lastD r rs1 → nextParent w1 t x = nextParent w t x)
    (hp2 : ∀ x ∈ r :: rs1, x ≠ r → prevParent w1 t x = prevParent w t x)
    (l1 : LinkN w1 t p (lastD r rs1) c) (l2 : LinkP w1 t p (lastD r rs1) c)
    (l3 : LinkN w1 t p c r) (l4 : LinkP w1 t p c r) :
    CycleOk w1 t p (r :: rs1 ++ [c]) := by
  obtain ⟨hch, _⟩ := h
  refine ⟨?_, ?_⟩
  · refine chain_snoc.2 ⟨?_, ⟨l1, l2⟩⟩
    refine chain_Adj_frame hch ?_ ?_
    · intro x hx
      exact hn x (List.dropLast_subset _ hx) (ne_lastD_of_mem_dropLast hnd hx)
    · intro y hy
      refine hp2 y (by simp [hy]) ?_
      intro he
      subst he
      exact (List.nodup_cons.1 hnd).1 hy
  · simp only [List.append_eq]
    rw [lastD_append_singleton]
    exact ⟨l3, l4⟩

/-- Splicing the tail member `c` out of a sibling cycle. -/
theorem cycle_detach {w w1 : World} {t : Tag} {p c a : Nat} {D1 : List Nat}
    (h : CycleOk w t p (a :: D1 ++ [c])) (hnd : (a :: D1 ++ [c]).Nodup)
    (hn : ∀ x ∈ a :: D1, x ≠ lastD a D1 → nextParent w1 t x = nextParent w t x)
    (hp2 : ∀ x ∈ a :: D1, x ≠ a → prevParent w1 t x = prevParent w t x)
    (l1 : LinkN w1 t p (lastD a D1) a) (l2 : LinkP w1 t p (lastD a D1) a) :
    CycleOk w1 t p (a :: D1) := by
  obtain ⟨hch, _⟩ := h
  have hch1 : List.Chain (Adj w t p) a D1 := (chain_snoc.1 hch).1
  have hnd1 : (a :: D1).Nodup := by
    have hsub : List.Sublist (a :: D1) (a :: D1 ++ [c]) := by
      rw [show a :: D1 ++ [c] = (a :: D1) ++ [c] from rfl]
      exact List.sublist_append_left _ _
    exact hsub.nodup hnd
  refine ⟨?_, ⟨l1, l2⟩⟩
  refine chain_Adj_frame hch1 ?_ ?_
  · intro x hx
    exact hn x (List.dropLast_subset _ hx) (ne_lastD_of_mem_dropLast hnd1 hx)
  · intro y hy
    refine hp2 y (by simp [hy]) ?_
    intro he
    subst he
    exact (List.nodup_cons.1 hnd1).1 hy

/-! ## The abstraction relation and worlds built by attach -/

/-- The world `w` realises the abstract forest `F` in the base hierarchy
and carries no other hierarchy data. -/
structure Agree (w : World) (F : Fst) : Prop where
  ok : FstOk w .base F
  roots_no_child : ∀ r ∈ Fst.rootsOf F, viewC w .base r = none
  cover : ∀ e, e ∈ w.alive ↔ e ∈ Fst.nodes F
  dead_clean : ∀ t e, e ∉ w.alive → w.pComp t e = none ∧ w.cComp t e = none
  only_base : ∀ t e, t ≠ .base → w.pComp t e = none ∧ w.cComp t e = none
  nodup : (Fst.nodes F).Nodup
  fresh : ∀ e ∈ Fst.nodes F, e < w.nextId

/-- Worlds built from the empty world solely by `spawn` and successful,
non-misused `attach` calls: the attached child is the root of one of the
current trees (so it has no `Child<T>` and attaching cannot create a
cycle) and the parent is a node of another tree. -/
inductive Build : World → Fst → Prop where
  | empty : Build World.empty .nil
  | spawn {w : World} {F : Fst} : Build w F →
      Build (spawnW w).2 (.cons (.node (spawnW w).1 .nil) F)
  | attach {w : World} {F : Fst} {c p : Nat} {tc : Tre} : Build w F →
      Fst.getTop F c = some tc →
      p ∈ Fst.nodes (F.removeTop c) →
      (HecsHierarchy.attach w .base c p).1 = .ok c →
      Build (HecsHierarchy.attach w .base c p).2 (addKidF (F.removeTop c) p tc)

theorem nodes_cons (t : Tre) (ts : Fst) : Fst.nodes (.cons t ts) = t.nodes ++ Fst.nodes ts := rfl

theorem nodes_nil : Fst.nodes .nil = [] := rfl

theorem nodes_node (e : Nat) (ks : Fst) : Tre.nodes (.node e ks) = e :: Fst.nodes ks := rfl

theorem rootsOf_cons (t : Tre) (ts : Fst) :
    Fst.rootsOf (.cons t ts) = t.root :: Fst.rootsOf ts := rfl

theorem rootsOf_nil : Fst.rootsOf .nil = [] := rfl

theorem root_node (e : Nat) (ks : Fst) : Tre.root (.node e ks) = e := rfl

theorem FstOk_cons {w : World} {t : Tag} {tr : Tre} {ts : Fst} :
    FstOk w t (.cons tr ts) ↔ TreOk w t tr ∧ FstOk w t ts := Iff.rfl

theorem FstOk_nil {w : World} {t : Tag} : FstOk w t .nil := trivial

theorem TreOk_node {w : World} {t : Tag} {e : Nat} {ks : Fst} :
    TreOk w t (.node e ks) ↔ NodeOk w t e (Fst.rootsOf ks) ∧ FstOk w t ks := Iff.rfl

theorem NodeOk_nil {w : World} {t : Tag} {e : Nat} :
    NodeOk w t e [] ↔ e ∈ w.alive ∧ viewP w t e = none := Iff.rfl

theorem viewP_spawn {w : World} {t : Tag} {x : Nat} (hx : x ≠ w.nextId) :
    viewP (spawnW w).2 t x = viewP w t x := by
  unfold viewP spawnW
  simp only [List.mem_cons]
  by_cases hal : x ∈ w.alive
  · simp [hal]
  · simp [hal, hx]

theorem viewC_spawn {w : World} {t : Tag} {x : Nat} (hx : x ≠ w.nextId) :
    viewC (spawnW w).2 t x = viewC w t x := by
  unfold viewC spawnW
  simp only [List.mem_cons]
  by_cases hal : x ∈ w.alive
  · simp [hal]
  · simp [hal, hx]

/-- `spawn` preserves the abstraction relation, prepending a fresh
single-node tree. -/
theorem spawn_agree {w : World} {F : Fst} (h : Agree w F) :
    Agree (spawnW w).2 (.cons (.node (spawnW w).1 .nil) F) := by
  have hnew : w.nextId ∉ w.alive := by
    intro hmem
    exact absurd (h.fresh _ ((h.cover _).1 hmem)) (lt_irrefl _)
  have hnewF : w.nextId ∉ Fst.nodes F := by
    intro hmem
    exact absurd (h.fresh _ hmem) (lt_irrefl _)
  have hne : ∀ x ∈ Fst.nodes F, x ≠ w.nextId := fun x hx he => hnewF (he ▸ hx)
  have halive : ∀ x ∈ Fst.nodes F, (x ∈ (spawnW w).2.alive ↔ x ∈ w.alive) := by
    intro x hx
    simp [spawnW, hne x hx]
  have hnid : (spawnW w).1 = w.nextId := rfl
  refine ⟨?_, ?_, ?_, ?_, ?_, ?_, ?_⟩
  · rw [FstOk_cons, TreOk_node, rootsOf_nil, NodeOk_nil]
    refine ⟨⟨⟨by simp [spawnW], ?_⟩, FstOk_nil⟩, ?_⟩
    · show viewP (spawnW w).2 .base w.nextId = none
      unfold viewP spawnW
      simp only [List.mem_cons, true_or, if_true]
      exact (h.dead_clean .base w.nextId hnew).1
    · exact FstOk_frame h.ok halive
        (fun x hx => viewP_spawn (hne x hx))
        (fun x hx => viewC_spawn (hne x hx))
  · intro r hr
    rw [rootsOf_cons, root_node, List.mem_cons] at hr
    rcases hr with rfl | hr
    · show viewC (spawnW w).2 .base w.nextId = none
      unfold viewC spawnW
      simp only [List.mem_cons, true_or, if_true]
      exact (h.dead_clean .base w.nextId hnew).2
    · rw [viewC_spawn (hne r (rootsOf_subset_nodes F r hr))]
      exact h.roots_no_child r hr
  · intro e
    rw [nodes_cons, nodes_node, nodes_nil]
    show e ∈ w.nextId :: w.alive ↔ _
    rw [List.mem_cons, List.singleton_append, List.mem_cons, h.cover e, hnid]
  · intro t e hd
    have hd1 : e ∉ w.alive := fun hmem => hd (by simp [spawnW, hmem])
    exact h.dead_clean t e hd1
  · exact fun t e ht => h.only_base t e ht
  · rw [nodes_cons, nodes_node, nodes_nil, List.singleton_append, List.nodup_cons]
    exact ⟨hnewF, h.nodup⟩
  · intro e he
    rw [nodes_cons, nodes_node, nodes_nil, List.singleton_append, List.mem_cons] at he
    show e < w.nextId + 1
    rcases he with rfl | he
    · exact Nat.lt_succ_self _
    · exact Nat.lt_succ_of_lt (h.fresh e he)

end HecsHierarchy

namespace HecsHierarchy

theorem rootsOf_sublist_nodes : ∀ (ks : Fst), List.Sublist (Fst.rootsOf ks) (Fst.nodes ks)
  | .nil => List.Sublist.refl _
  | .cons (.node e ek) ts => by
    rw [rootsOf_cons, nodes_cons, root_node, nodes_node, List.cons_append]
    exact List.Sublist.cons₂ e ((rootsOf_sublist_nodes ts).trans (List.sublist_append_right _ _))

theorem kidsAtF_nodes_nodup {F : Fst} {p : Nat} {ks : Fst}
    (hnd : (Fst.nodes F).Nodup) (h : KidsAtF F p ks) : (p :: Fst.nodes ks).Nodup :=
  ((kidsAtF_infixOf h).sublist).nodup hnd

/-- The key step: a successful, well-placed `attach` preserves the
abstraction relation, and it does succeed. -/
theorem attach_agree {w : World} {F : Fst} {c p : Nat} {tc : Tre}
    (h : Agree w F) (hTop : Fst.getTop F c = some tc)
    (hp : p ∈ Fst.nodes (F.removeTop c)) :
    (attach w .base c p).1 = .ok c ∧
    Agree (attach w .base c p).2 (addKidF (F.removeTop c) p tc) := by
  have htcroot : tc.root = c := getTop_root hTop
  have hperm : (Fst.nodes F).Perm (tc.nodes ++ Fst.nodes (F.removeTop c)) :=
    getTop_nodes_perm hTop
  have hctc : c ∈ tc.nodes := htcroot ▸ root_mem_nodes tc
  have hcF : c ∈ Fst.nodes F := hperm.mem_iff.2 (List.mem_append.2 (Or.inl hctc))
  have hnd2 : (tc.nodes ++ Fst.nodes (F.removeTop c)).Nodup := hperm.nodup h.nodup
  have hdisj := (List.nodup_append.1 hnd2).2.2
  have hndtc : tc.nodes.Nodup := (List.nodup_append.1 hnd2).1
  have hndG : (Fst.nodes (F.removeTop c)).Nodup := (List.nodup_append.1 hnd2).2.1
  have hcG : c ∉ Fst.nodes (F.removeTop c) := fun hcg => hdisj hctc hcg
  have hpF : p ∈ Fst.nodes F := hperm.mem_iff.2 (List.mem_append.2 (Or.inr hp))
  have hcal : c ∈ w.alive := (h.cover c).2 hcF
  have hpal : p ∈ w.alive := (h.cover p).2 hpF
  have hptc : p ∉ tc.nodes := fun hmem => hdisj hmem hp
  obtain ⟨htcOk, hGOk⟩ := getTop_ok h.ok hTop
  have hcNoChild : viewC w .base c = none := h.roots_no_child c (getTop_mem_roots hTop)
  obtain ⟨ksP, hKA⟩ := kidsAtF_exists hp
  obtain ⟨hNodeP, hKsOk⟩ := kidsAtF_ok hGOk hKA
  have hrsSub : ∀ x ∈ Fst.rootsOf ksP, x ∈ Fst.nodes (F.removeTop c) :=
    fun x hx => (kidsAtF_mem hKA).2 x (rootsOf_subset_nodes ksP x hx)
  have hndPk : (p :: Fst.nodes ksP).Nodup := kidsAtF_nodes_nodup hndG hKA
  have hndrs : (Fst.rootsOf ksP).Nodup :=
    ((rootsOf_sublist_nodes ksP).nodup (List.nodup_cons.1 hndPk).2)
  have hpermF2 : (Fst.nodes (addKidF (F.removeTop c) p tc)).Perm
      (Fst.nodes (F.removeTop c) ++ tc.nodes) := addKidF_nodes_perm hndG hp
  have hndF2 : (Fst.nodes (addKidF (F.removeTop c) p tc)).Nodup :=
    hpermF2.symm.nodup (List.perm_append_comm.nodup hnd2)
  -- the edges out of p are unique to p
  have hEdgeP : ∀ q ksq x, KidsAtF (F.removeTop c) q ksq → x ∈ Fst.rootsOf ksq →
      x ∈ Fst.rootsOf ksP → q = p := fun q ksq x hq hx hx1 =>
    edge_uniqueF hndG hq hKA hx hx1
  cases hrs : Fst.rootsOf ksP with
  | nil =>
    rw [hrs] at hNodeP
    obtain ⟨-, hvP0⟩ := hNodeP
    have hvP : viewP w .base p = none := hvP0
    obtain ⟨hok, halX, hnidX, hvPX, hpunch, hvcX, hcunch⟩ := attach_exec_new hpal hcal hvP
    have hvPeq : ∀ x, x ≠ p → viewP (attach w .base c p).2 .base x = viewP w .base x := by
      intro x hx
      unfold viewP
      rw [halX, hpunch .base x (fun hh => hx hh.2)]
    have hvCeq : ∀ x, x ≠ c → viewC (attach w .base c p).2 .base x = viewC w .base x := by
      intro x hx
      unfold viewC
      rw [halX, hcunch .base x (fun hh => hx hh.2)]
    refine ⟨hok, ?_, ?_, ?_, ?_, ?_, ?_, ?_⟩
    · refine fstOk_of_forall ?_
      intro q ks1 hq
      rcases kidsAt_addKidF_inv hndG hptc hq with ⟨rfl, ksP2, hKA2, rfl⟩ | hq2 | hq2
      · have heq : ksP2 = ksP := kidsAtF_unique hndG hKA2 hKA
        subst heq
        rw [rootsOf_snoc, hrs, htcroot, List.nil_append]
        exact ⟨halX ▸ hpal, hvPX, List.Chain.nil,
          ⟨⟨_, hvcX, rfl, rfl⟩, ⟨_, hvcX, rfl, rfl⟩⟩⟩
      · obtain ⟨hqp, ksq, hKAq, hroots⟩ := hq2
        rw [hroots]
        have hN := (kidsAtF_ok hGOk hKAq).1
        refine NodeOk_frame hN (by rw [halX]) (hvPeq q hqp) ?_
        intro x hx
        refine hvCeq x ?_
        intro he
        exact hcG (he ▸ (kidsAtF_mem hKAq).2 x (rootsOf_subset_nodes ksq x hx))
      · have hN := (kidsAtT_ok htcOk hq2).1
        have hqtc : q ∈ tc.nodes := (kidsAtT_mem hq2).1
        refine NodeOk_frame hN (by rw [halX]) (hvPeq q (fun he => hptc (he ▸ hqtc))) ?_
        intro x hx
        have hxtc : x ∈ Fst.nodes tc.kids :=
          kidsAtT_nodes_sub_kids hq2 x (rootsOf_subset_nodes ks1 x hx)
        refine hvCeq x ?_
        intro he
        subst he
        obtain ⟨e0, ks0⟩ := tc
        rw [root_node] at htcroot
        subst htcroot
        rw [nodes_node, List.nodup_cons] at hndtc
        exact hndtc.1 (by simpa using hxtc)
    · intro r1 hr1
      rw [rootsOf_addKidF] at hr1
      have hr1G : r1 ∈ Fst.nodes (F.removeTop c) :=
        rootsOf_subset_nodes _ r1 hr1
      rw [hvCeq r1 (fun he => hcG (he ▸ hr1G))]
      exact h.roots_no_child r1 (rootsOf_removeTop_subset c r1 hr1)
    · intro e
      rw [halX, h.cover e]
      constructor
      · intro he
        exact hpermF2.mem_iff.2 (by
          rcases List.mem_append.1 (hperm.mem_iff.1 he) with h1 | h1
          · exact List.mem_append.2 (Or.inr h1)
          · exact List.mem_append.2 (Or.inl h1))
      · intro he
        refine hperm.mem_iff.2 ?_
        rcases List.mem_append.1 (hpermF2.mem_iff.1 he) with h1 | h1
        · exact List.mem_append.2 (Or.inr h1)
        · exact List.mem_append.2 (Or.inl h1)
    · intro t e hd
      rw [halX] at hd
      constructor
      · rw [hpunch t e (fun hh => hd (hh.2 ▸ hpal))]
        exact (h.dead_clean t e hd).1
      · rw [hcunch t e (fun hh => hd (hh.2 ▸ hcal))]
        exact (h.dead_clean t e hd).2
    · intro t e ht
      constructor
      · rw [hpunch t e (fun hh => ht hh.1)]
        exact (h.only_base t e ht).1
      · rw [hcunch t e (fun hh => ht hh.1)]
        exact (h.only_base t e ht).2
    · exact hndF2
    · intro e he
      rw [hnidX]
      refine h.fresh e (hperm.mem_iff.2 ?_)
      rcases List.mem_append.1 (hpermF2.mem_iff.1 he) with h1 | h1
      · exact List.mem_append.2 (Or.inr h1)
      · exact List.mem_append.2 (Or.inl h1)
  | cons r rs1 =>
    rw [hrs] at hNodeP hndrs
    rw [hrs] at hrsSub
    obtain ⟨-, hNP⟩ := hNodeP
    have hvP : viewP w .base p = some ⟨(r :: rs1).length, lastD r rs1⟩ := hNP.1
    have hcyc : CycleOk w .base p (r :: rs1) := hNP.2
    have hrmem : r ∈ (r :: rs1) := by simp
    have hlmem : lastD r rs1 ∈ (r :: rs1) := lastD_mem rs1 r
    obtain ⟨dlast, hdl, hdlp⟩ := cycleOk_mem_data hcyc hlmem
    obtain ⟨dr, hdr, hdrp⟩ := cycleOk_mem_data hcyc hrmem
    have hnxt : dlast.next = r := by
      obtain ⟨d, hd, -, hn⟩ := hcyc.2.1
      rw [hdl] at hd
      rw [← hn, Option.some.inj hd]
    have hcl : c ≠ lastD r rs1 := fun he => hcG (he ▸ hrsSub _ hlmem)
    have hcr : c ≠ r := fun he => hcG (he ▸ hrsSub _ hrmem)
    have hlal : lastD r rs1 ∈ w.alive := viewC_some_alive hdl
    have hral : r ∈ w.alive := viewC_some_alive hdr
    obtain ⟨hok, halX, hnidX, hvPX, hpunch, hvcX, hcunch, hnpeq, hppeq, lkN1, lkP1, lkN2, lkP2⟩ :=
      attach_exec_existing hpal hcal hvP hdl hdlp hnxt hdr hdrp hcl hcr
    have hvPeq : ∀ x, x ≠ p → viewP (attach w .base c p).2 .base x = viewP w .base x := by
      intro x hx
      unfold viewP
      rw [halX, hpunch .base x (fun hh => hx hh.2)]
    have hvCeq : ∀ x, x ≠ lastD r rs1 → x ≠ r → x ≠ c →
        viewC (attach w .base c p).2 .base x = viewC w .base x := by
      intro x h1 h2 h3
      unfold viewC
      rw [halX, hcunch .base x ?_]
      intro hh
      rcases hh.2 with he | he | he
      · exact h1 he
      · exact h2 he
      · exact h3 he
    have hlastEdge : lastD r rs1 ∈ Fst.rootsOf ksP := by rw [hrs]; exact hlmem
    have hrEdge : r ∈ Fst.rootsOf ksP := by rw [hrs]; exact hrmem
    refine ⟨hok, ?_, ?_, ?_, ?_, ?_, ?_, ?_⟩
    · refine fstOk_of_forall ?_
      intro q ks1 hq
      rcases kidsAt_addKidF_inv hndG hptc hq with ⟨rfl, ksP2, hKA2, rfl⟩ | hq2 | hq2
      · have heq : ksP2 = ksP := kidsAtF_unique hndG hKA2 hKA
        subst heq
        rw [rootsOf_snoc, hrs, htcroot, List.cons_append]
        refine ⟨halX ▸ hpal, ?_, ?_⟩
        · rw [lastD_append_singleton, hvPX]
          simp [List.length_append]
        · refine cycle_attach hcyc hndrs ?_ ?_ lkN1 lkP1 lkN2 lkP2
          · intro x hx hxl
            exact hnpeq x hxl (fun he => hcG (he ▸ hrsSub x hx))
          · intro x hx hxr
            exact hppeq x hxr (fun he => hcG (he ▸ hrsSub x hx))
      · obtain ⟨hqp, ksq, hKAq, hroots⟩ := hq2
        rw [hroots]
        have hN := (kidsAtF_ok hGOk hKAq).1
        refine NodeOk_frame hN (by rw [halX]) (hvPeq q hqp) ?_
        intro x hx
        refine hvCeq x ?_ ?_ ?_
        · intro he
          exact hqp (hEdgeP q ksq x hKAq hx (he ▸ hlastEdge))
        · intro he
          exact hqp (hEdgeP q ksq x hKAq hx (he ▸ hrEdge))
        · intro he
          exact hcG (he ▸ (kidsAtF_mem hKAq).2 x (rootsOf_subset_nodes ksq x hx))
      · have hN := (kidsAtT_ok htcOk hq2).1
        have hqtc : q ∈ tc.nodes := (kidsAtT_mem hq2).1
        refine NodeOk_frame hN (by rw [halX]) (hvPeq q (fun he => hptc (he ▸ hqtc))) ?_
        intro x hx
        have hxkid : x ∈ Fst.nodes tc.kids :=
          kidsAtT_nodes_sub_kids hq2 x (rootsOf_subset_nodes ks1 x hx)
        have hxtc : x ∈ tc.nodes := kids_nodes_subset tc x hxkid
        refine hvCeq x ?_ ?_ ?_
        · intro he
          exact hdisj hxtc (he ▸ hrsSub _ hlmem)
        · intro he
          exact hdisj hxtc (he ▸ hrsSub _ hrmem)
        · intro he
          subst he
          obtain ⟨e0, ks0⟩ := tc
          rw [root_node] at htcroot
          subst htcroot
          rw [nodes_node, List.nodup_cons] at hndtc
          exact hndtc.1 (by simpa using hxkid)
    · intro r1 hr1
      rw [rootsOf_addKidF] at hr1
      have hr1G : r1 ∈ Fst.nodes (F.removeTop c) :=
        rootsOf_subset_nodes _ r1 hr1
      rw [hvCeq r1 ?_ ?_ (fun he => hcG (he ▸ hr1G))]
      · exact h.roots_no_child r1 (rootsOf_removeTop_subset c r1 hr1)
      · intro he
        exact roots_vs_deep hndG (he ▸ hr1) hKA hlastEdge
      · intro he
        exact roots_vs_deep hndG (he ▸ hr1) hKA hrEdge
    · intro e
      rw [halX, h.cover e]
      constructor
      · intro he
        exact hpermF2.mem_iff.2 (by
          rcases List.mem_append.1 (hperm.mem_iff.1 he) with h1 | h1
          · exact List.mem_append.2 (Or.inr h1)
          · exact List.mem_append.2 (Or.inl h1))
      · intro he
        refine hperm.mem_iff.2 ?_
        rcases List.mem_append.1 (hpermF2.mem_iff.1 he) with h1 | h1
        · exact List.mem_append.2 (Or.inr h1)
        · exact List.mem_append.2 (Or.inl h1)
    · intro t e hd
      rw [halX] at hd
      constructor
      · rw [hpunch t e (fun hh => hd (hh.2 ▸ hpal))]
        exact (h.dead_clean t e hd).1
      · rw [hcunch t e ?_]
        · exact (h.dead_clean t e hd).2
        · intro hh
          rcases hh.2 with he | he | he
          · exact hd (he ▸ hlal)
          · exact hd (he ▸ hral)
          · exact hd (he ▸ hcal)
    · intro t e ht
      constructor
      · rw [hpunch t e (fun hh => ht hh.1)]
        exact (h.only_base t e ht).1
      · rw [hcunch t e (fun hh => ht hh.1)]
        exact (h.only_base t e ht).2
    · exact hndF2
    · intro e he
      rw [hnidX]
      refine h.fresh e (hperm.mem_iff.2 ?_)
      rcases List.mem_append.1 (hpermF2.mem_iff.1 he) with h1 | h1
      · exact List.mem_append.2 (Or.inr h1)
      · exact List.mem_append.2 (Or.inl h1)

end HecsHierarchy

namespace HecsHierarchy

/-- Every world built by spawn/attach realises its abstract forest. -/
theorem build_agree {w : World} {F : Fst} (h : Build w F) : Agree w F := by
  induction h with
  | empty =>
    refine ⟨FstOk_nil, ?_, ?_, ?_, ?_, ?_, ?_⟩
    · intro r hr
      rw [rootsOf_nil] at hr
      exact absurd hr (List.not_mem_nil r)
    · intro e
      rw [nodes_nil]
      exact ⟨fun he => absurd he (List.not_mem_nil e), fun he => absurd he (List.not_mem_nil e)⟩
    · exact fun t e _ => ⟨rfl, rfl⟩
    · exact fun t e _ => ⟨rfl, rfl⟩
    · rw [nodes_nil]; exact List.nodup_nil
    · intro e he
      rw [nodes_nil] at he
      exact absurd he (List.not_mem_nil e)
  | spawn _ ih => exact spawn_agree ih
  | attach _ hTop hp _ ih => exact (attach_agree ih hTop hp).2

/-- `children(p)` reads off exactly the abstract child list of a
well-formed node. -/
theorem childrenList_of_nodeOk {w : World} {t : Tag} {p : Nat} {rs : List Nat}
    (h : NodeOk w t p rs) : childrenList w t p = rs ∧ childrenCount w t p = rs.length := by
  cases rs with
  | nil =>
    obtain ⟨hal, hvp0⟩ := h
    have hvp : viewP w t p = none := hvp0
    have hP : ∀ v, tryGetP w t p ≠ .ok v := tryGetP_not_ok hvp
    have hInit : childrenInit w t p = (0, none) := by
      rw [childrenInit]
      cases hg : tryGetP w t p with
      | ok v => exact absurd hg (hP v)
      | err e => rfl
      | panicked => rfl
      | fuelOut => rfl
    constructor
    · rw [childrenList, hInit]
      rfl
    · rw [childrenCount, hInit]
      rfl
  | cons r rs1 =>
    obtain ⟨hal, hNP⟩ := h
    have hvp : viewP w t p = some ⟨(r :: rs1).length, lastD r rs1⟩ := hNP.1
    have hcyc : CycleOk w t p (r :: rs1) := hNP.2
    have hP : tryGetP w t p = .ok ⟨(r :: rs1).length, lastD r rs1⟩ := tryGetP_ok_iff.2 hvp
    obtain ⟨dlast, hdl, -⟩ := cycleOk_mem_data hcyc (lastD_mem rs1 r)
    have hC : tryGetC w t (lastD r rs1) = .ok dlast := tryGetC_ok_iff.2 hdl
    have hInit : childrenInit w t p = ((r :: rs1).length, some dlast.next) := by
      rw [childrenInit, hP]
      dsimp only
      rw [hC]
    have hdecomp : (r :: rs1).dropLast ++ lastD r rs1 :: [] = r :: rs1 :=
      dropLast_append_lastD rs1 r
    have hcyc2 : CycleOk w t p ((r :: rs1).dropLast ++ lastD r rs1 :: []) := by
      rw [hdecomp]; exact hcyc
    have hrun := cycleOk_run_from hcyc2 hdl
    rw [hdecomp] at hrun
    constructor
    · rw [childrenList, hInit]
      dsimp only
      rw [hrun, List.nil_append]
      exact hdecomp
    · rw [childrenCount, hInit]

end HecsHierarchy

namespace HecsHierarchy

/-! ## Correctness of the depth-first iterator -/

/-- The trees still pending in one stack frame: the cursor sits on the
first root, every pending root resolves, and `next` pointers link the
consecutive roots. -/
def PendOk (w : World) (t : Tag) : Nat → Fst → Prop
  | _, .nil => True
  | cur, .cons tr ts =>
    tr.root = cur ∧ ∃ d, viewC w t cur = some d ∧ PendOk w t d.next ts

/-- Each stack frame corresponds to one pending forest. -/
def StackOk (w : World) (t : Tag) : List Frame → List Fst → Prop
  | [], [] => True
  | fr :: st, ps :: Ps =>
    fr.remaining = Fst.length ps ∧ PendOk w t fr.current ps ∧ FstOk w t ps ∧ StackOk w t st Ps
  | _, _ => False

/-- Concatenated preorder node lists of the pending forests. -/
def joinNodes : List Fst → List Nat
  | [] => []
  | ps :: Ps => Fst.nodes ps ++ joinNodes Ps

/-- Total number of pending nodes. -/
def totalSize : List Fst → Nat
  | [] => 0
  | ps :: Ps => (Fst.nodes ps).length + totalSize Ps

theorem length_rootsOf : ∀ (ks : Fst), (Fst.rootsOf ks).length = Fst.length ks
  | .nil => rfl
  | .cons t ts => by rw [rootsOf_cons, List.length_cons, Fst.length, length_rootsOf ts]

theorem pendOk_of_chain {w : World} {t : Tag} {p : Nat} :
    ∀ (ks : Fst) (cur : Nat) (rr : List Nat),
      Fst.rootsOf ks = cur :: rr → List.Chain (Adj w t p) cur rr →
      (∃ dl, viewC w t (lastD cur rr) = some dl) → PendOk w t cur ks
  | .nil, cur, rr, h, _, _ => by rw [rootsOf_nil] at h; exact absurd h (by simp)
  | .cons (.node e eks) ts2, cur, rr, h, hch, hlast => by
    rw [rootsOf_cons, root_node] at h
    obtain ⟨rfl, rfl⟩ := List.cons.inj h
    cases hr2 : Fst.rootsOf ts2 with
    | nil =>
      have hts2 : ts2 = .nil := by
        cases ts2 with
        | nil => rfl
        | cons a b => rw [rootsOf_cons] at hr2; exact absurd hr2 (by simp)
      subst hts2
      rw [hr2] at hlast
      obtain ⟨dl, hdl⟩ := hlast
      rw [lastD] at hdl
      exact ⟨rfl, dl, hdl, trivial⟩
    | cons r1 rr1 =>
      rw [hr2] at hch hlast
      rw [List.chain_cons] at hch
      obtain ⟨d0, hd0, -, hnext⟩ := hch.1.1
      refine ⟨rfl, d0, hd0, ?_⟩
      rw [hnext]
      exact pendOk_of_chain ts2 r1 rr1 hr2 hch.2 (by rwa [lastD_cons] at hlast)

/-- The depth-first driving loop, started on a well-formed stack with
enough fuel, returns the concatenated preorders of the pending forests. -/
theorem dfs_run_ok {w : World} {t : Tag} :
    ∀ (N : Nat) (st : List Frame) (Ps : List Fst),
      2 * totalSize Ps + st.length ≤ N → StackOk w t st Ps →
      ∀ fuel, totalSize Ps < fuel →
      dfsRun w t fuel st = .ok (joinNodes Ps) := by
  intro N
  induction N with
  | zero =>
    intro st Ps hm hs fuel hf
    match st, Ps, hs with
    | [], [], _ =>
      obtain ⟨f, rfl⟩ : ∃ f, fuel = f + 1 := ⟨fuel - 1, by omega⟩
      rw [joinNodes]
      rfl
    | fr :: st1, ps :: Ps1, _ => simp [List.length_cons] at hm
  | succ N ih =>
    intro st Ps hm hs fuel hf
    match st, Ps, hs with
    | [], [], _ =>
      obtain ⟨f, rfl⟩ : ∃ f, fuel = f + 1 := ⟨fuel - 1, by omega⟩
      rw [joinNodes]
      rfl
    | ⟨cur, rem⟩ :: st1, ps :: Ps1, hsk =>
      obtain ⟨hrem, hpend, hfok, hrest⟩ := hsk
      cases ps with
      | nil =>
        rw [Fst.length] at hrem
        subst hrem
        have heq : dfsRun w t fuel (Frame.mk cur 0 :: st1) = dfsRun w t fuel st1 := by
          obtain ⟨f, rfl⟩ : ∃ f, fuel = f + 1 := ⟨fuel - 1, by
            have := hf
            omega⟩
          rfl
        rw [heq, joinNodes, nodes_nil, List.nil_append]
        refine ih st1 Ps1 ?_ hrest fuel ?_
        · rw [totalSize, nodes_nil] at hm
          simp only [List.length_cons] at hm
          omega
        · rw [totalSize, nodes_nil] at hf
          simpa using hf
      | cons tr ts =>
        obtain ⟨e, ks⟩ := tr
        rw [PendOk, root_node] at hpend
        obtain ⟨rfl, d, hd, hpend2⟩ := hpend
        dsimp only at hd
        rw [Fst.length] at hrem
        rw [FstOk_cons, TreOk_node] at hfok
        obtain ⟨⟨hN, hksOk⟩, htsOk⟩ := hfok
        obtain ⟨f, rfl⟩ : ∃ f, fuel = f + 1 := ⟨fuel - 1, by
          have := hf
          omega⟩
        subst hrem
        cases hks : Fst.rootsOf ks with
        | nil =>
          have hvP : viewP w t e = none := by
            rw [hks] at hN
            exact hN.2
          have hstep : dfsNext w t (Frame.mk e (Fst.length ts + 1) :: st1) =
              .yield e (Frame.mk d.next (Fst.length ts) :: st1) := by
            rw [dfsNext, hd, hvP]
          have hks0 : ks = .nil := by
            cases ks with
            | nil => rfl
            | cons a b => rw [rootsOf_cons] at hks; exact absurd hks (by simp)
          subst hks0
          have hrec : dfsRun w t f (Frame.mk d.next (Fst.length ts) :: st1) =
              .ok (joinNodes (ts :: Ps1)) := by
            refine ih (Frame.mk d.next (Fst.length ts) :: st1) (ts :: Ps1) ?_
              (show StackOk w t (Frame.mk d.next (Fst.length ts) :: st1) (ts :: Ps1) from
                ⟨rfl, hpend2, htsOk, hrest⟩) f ?_
            · simp only [totalSize, nodes_cons, nodes_node, nodes_nil, List.length_append,
                List.length_cons, List.length_nil, List.singleton_append,
                List.nil_append] at hm ⊢
              omega
            · simp only [totalSize, nodes_cons, nodes_node, nodes_nil, List.length_append,
                List.length_cons, List.length_nil, List.singleton_append,
                List.nil_append] at hf ⊢
              omega
          rw [dfsRun, hstep]
          dsimp only
          rw [hrec]
          dsimp only
          simp [joinNodes, nodes_cons, nodes_node, nodes_nil]
        | cons r0 rr =>
          rw [hks] at hN
          have hvP : viewP w t e = some ⟨(r0 :: rr).length, lastD r0 rr⟩ := hN.2.1
          have hcyc : CycleOk w t e (r0 :: rr) := hN.2.2
          obtain ⟨dl, hdl, -⟩ := cycleOk_mem_data hcyc (lastD_mem rr r0)
          have hdlnext : dl.next = r0 := by
            obtain ⟨d1, hd1, -, hn1⟩ := hcyc.2.1
            rw [hdl] at hd1
            rw [← hn1, Option.some.inj hd1]
          have hstep : dfsNext w t (Frame.mk e (Fst.length ts + 1) :: st1) =
              .yield e (Frame.mk dl.next (r0 :: rr).length ::
                Frame.mk d.next (Fst.length ts) :: st1) := by
            rw [dfsNext, hd, hvP]
            dsimp only
            rw [hdl]
          have hpendKs : PendOk w t r0 ks :=
            pendOk_of_chain ks r0 rr hks hcyc.1 ⟨dl, hdl⟩
          have hlen : (r0 :: rr).length = Fst.length ks := by
            rw [← hks, length_rootsOf]
          have hrec : dfsRun w t f (Frame.mk dl.next (r0 :: rr).length ::
              Frame.mk d.next (Fst.length ts) :: st1) = .ok (joinNodes (ks :: ts :: Ps1)) := by
            refine ih (Frame.mk dl.next (r0 :: rr).length ::
                Frame.mk d.next (Fst.length ts) :: st1) (ks :: ts :: Ps1) ?_
              (show StackOk w t (Frame.mk dl.next (r0 :: rr).length ::
                  Frame.mk d.next (Fst.length ts) :: st1) (ks :: ts :: Ps1) from
                ⟨by rw [hlen], by rw [hdlnext]; exact hpendKs, hksOk,
                 rfl, hpend2, htsOk, hrest⟩) f ?_
            · simp only [totalSize, nodes_cons, nodes_node, List.length_append,
                List.length_cons, List.length_nil, List.singleton_append,
                List.nil_append] at hm ⊢
              omega
            · simp only [totalSize, nodes_cons, nodes_node, List.length_append,
                List.length_cons, List.length_nil, List.singleton_append,
                List.nil_append] at hf ⊢
              omega
          rw [dfsRun, hstep]
          dsimp only
          rw [hrec]
          dsimp only
          simp [joinNodes, nodes_cons, nodes_node, nodes_nil]

end HecsHierarchy

namespace HecsHierarchy

/-- `descendants_depth_first` on a located node returns exactly the
preorder of its child forest. -/
theorem descendantsDF_of_located {w : World} {F : Fst} {root : Nat} {ks : Fst}
    (h : Agree w F) (hloc : KidsAtF F root ks) :
    ∀ fuel, (Fst.nodes ks).length < fuel →
    descendantsDF w .base fuel root = .ok (Fst.nodes ks) := by
  intro fuel hfuel
  obtain ⟨hN, hksOk⟩ := kidsAtF_ok h.ok hloc
  cases hks : Fst.rootsOf ks with
  | nil =>
    have hks0 : ks = .nil := by
      cases ks with
      | nil => rfl
      | cons a b => rw [rootsOf_cons] at hks; exact absurd hks (by simp)
    subst hks0
    have hvP : viewP w .base root = none := by
      rw [hks] at hN
      exact hN.2
    have hnew : dfsNew w .base root = [] := by
      rw [dfsNew, hvP]
    rw [descendantsDF, hnew]
    obtain ⟨f, rfl⟩ : ∃ f, fuel = f + 1 := ⟨fuel - 1, by omega⟩
    rw [nodes_nil]
    rfl
  | cons r0 rr =>
    rw [hks] at hN
    have hvP : viewP w .base root = some ⟨(r0 :: rr).length, lastD r0 rr⟩ := hN.2.1
    have hcyc : CycleOk w .base root (r0 :: rr) := hN.2.2
    obtain ⟨dl, hdl, -⟩ := cycleOk_mem_data hcyc (lastD_mem rr r0)
    have hdlnext : dl.next = r0 := by
      obtain ⟨d1, hd1, -, hn1⟩ := hcyc.2.1
      rw [hdl] at hd1
      rw [← hn1, Option.some.inj hd1]
    have hC : tryGetC w .base (lastD r0 rr) = .ok dl := tryGetC_ok_iff.2 hdl
    have hnew : dfsNew w .base root = [Frame.mk dl.next (r0 :: rr).length] := by
      rw [dfsNew, hvP]
      dsimp only
      rw [hC]
    have hlen : (r0 :: rr).length = Fst.length ks := by rw [← hks, length_rootsOf]
    have hpendKs : PendOk w .base r0 ks := pendOk_of_chain ks r0 rr hks hcyc.1 ⟨dl, hdl⟩
    have hsk : StackOk w .base [Frame.mk dl.next (r0 :: rr).length] [ks] :=
      ⟨by rw [hlen], by rw [hdlnext]; exact hpendKs, hksOk, trivial⟩
    have hrun := dfs_run_ok (2 * totalSize [ks] + 1)
      [Frame.mk dl.next (r0 :: rr).length] [ks] (by simp) hsk fuel
      (by rw [totalSize, totalSize]; omega)
    rw [descendantsDF, hnew, hrun, joinNodes, joinNodes, List.append_nil]

/-- The parent recorded in an entity's `Child<T>` component, if any. -/
def parentLink (w : World) (t : Tag) (c : Nat) : Option Nat :=
  (viewC w t c).map Child.parent

/-- `e` is a strict descendant of `root`: reachable by one or more
`Child<T>.parent` links pointing down from `root`. -/
inductive Desc (w : World) (t : Tag) (root : Nat) : Nat → Prop where
  | base {c : Nat} : parentLink w t c = some root → Desc w t root c
  | step {m c : Nat} : Desc w t root m → parentLink w t c = some m → Desc w t root c

theorem desc_trans {w : World} {t : Tag} {root m e : Nat}
    (h1 : Desc w t root m) (h2 : Desc w t m e) : Desc w t root e := by
  induction h2 with
  | base hp => exact Desc.step h1 hp
  | step _ hp ih => exact Desc.step ih hp

/-- An edge of the abstract forest. -/
def EdgeF (F : Fst) (q k : Nat) : Prop :=
  ∃ ks, KidsAtF F q ks ∧ k ∈ Fst.rootsOf ks

/-- In an agreeing world, the `Child.parent` links are exactly the forest
edges. -/
theorem agree_edge_iff {w : World} {F : Fst} (h : Agree w F) {q k : Nat} :
    parentLink w .base k = some q ↔ EdgeF F q k := by
  constructor
  · intro hpl
    rw [parentLink] at hpl
    cases hv : viewC w .base k with
    | none => rw [hv] at hpl; exact absurd hpl (by simp)
    | some d =>
      rw [hv] at hpl
      have hq : d.parent = q := by simpa using hpl
      have hkF : k ∈ Fst.nodes F := (h.cover k).1 (viewC_some_alive hv)
      rcases loc_in_forest hkF with hroot | ⟨q2, ks2, hloc2, hk2⟩
      · rw [h.roots_no_child k hroot] at hv
        exact absurd hv (by simp)
      · obtain ⟨hN2, -⟩ := kidsAtF_ok h.ok hloc2
        cases hr2 : Fst.rootsOf ks2 with
        | nil => rw [hr2] at hk2; exact absurd hk2 (by simp)
        | cons a b =>
          rw [hr2] at hN2 hk2
          obtain ⟨d2, hd2, hp2⟩ := cycleOk_mem_data hN2.2.2 hk2
          rw [hv] at hd2
          have : d2 = d := (Option.some.inj hd2).symm
          subst this
          rw [hp2] at hq
          subst hq
          exact ⟨ks2, hloc2, by rw [hr2]; exact hk2⟩
  · intro ⟨ks, hloc, hk⟩
    obtain ⟨hN, -⟩ := kidsAtF_ok h.ok hloc
    cases hr : Fst.rootsOf ks with
    | nil => rw [hr] at hk; exact absurd hk (by simp)
    | cons a b =>
      rw [hr] at hN hk
      obtain ⟨d, hd, hp⟩ := cycleOk_mem_data hN.2.2 hk
      rw [parentLink, hd]
      simp [hp]

/-- Everything in a located child forest is a descendant of the node. -/
theorem desc_of_mem {w : World} {F : Fst} (h : Agree w F) :
    ∀ (ks : Fst) (q : Nat),
      (∀ x ksx, KidsAtF ks x ksx → KidsAtF F x ksx) →
      (∀ r ∈ Fst.rootsOf ks, parentLink w .base r = some q) →
      ∀ e ∈ Fst.nodes ks, Desc w .base q e
  | .nil, q, _, _, e, he => by rw [nodes_nil] at he; exact absurd he (by simp)
  | .cons (.node a ks0) ts, q, hloc, hpl, e, he => by
    rw [nodes_cons, nodes_node, List.mem_append, List.mem_cons] at he
    have hqa : Desc w .base q a :=
      Desc.base (hpl a (by rw [rootsOf_cons, root_node]; simp))
    rcases he with (rfl | he0) | hets
    · exact hqa
    · have hloc0 : ∀ x ksx, KidsAtF ks0 x ksx → KidsAtF F x ksx := fun x ksx hx =>
        hloc x ksx (KidsAtF.head (KidsAtT.deeper hx))
      have hpl0 : ∀ r ∈ Fst.rootsOf ks0, parentLink w .base r = some a := fun r hr =>
        (agree_edge_iff h).2 ⟨ks0, hloc a ks0 (KidsAtF.head (KidsAtT.here a ks0)), hr⟩
      exact desc_trans hqa (desc_of_mem h ks0 a hloc0 hpl0 e he0)
    · have hlocts : ∀ x ksx, KidsAtF ts x ksx → KidsAtF F x ksx := fun x ksx hx =>
        hloc x ksx (KidsAtF.tail hx)
      have hplts : ∀ r ∈ Fst.rootsOf ts, parentLink w .base r = some q := fun r hr =>
        hpl r (by rw [rootsOf_cons]; simp [hr])
      exact desc_of_mem h ts q hlocts hplts e hets

/-- Conversely, every descendant of a located node lies in its child
forest. -/
theorem mem_of_desc {w : World} {F : Fst} (h : Agree w F) {root : Nat} {ks : Fst}
    (hloc : KidsAtF F root ks) {e : Nat} (hd : Desc w .base root e) :
    e ∈ Fst.nodes ks := by
  induction hd with
  | base hp =>
    obtain ⟨ks2, hloc2, hk2⟩ := (agree_edge_iff h).1 hp
    have : ks2 = ks := kidsAtF_unique h.nodup hloc2 hloc
    subst this
    exact rootsOf_subset_nodes _ _ hk2
  | step _ hp ih =>
    obtain ⟨ksm, hlocm, hkm⟩ := (agree_edge_iff h).1 hp
    obtain ⟨ksm2, hlocm2⟩ := kidsAtF_exists ih
    have hlift : KidsAtF F _ ksm2 := kidsAtF_trans hloc hlocm2
    have : ksm = ksm2 := kidsAtF_unique h.nodup hlocm hlift
    subst this
    exact (kidsAtF_mem hlocm2).2 _ (rootsOf_subset_nodes _ _ hkm)

/-- `a` occurs in `l` strictly before some occurrence of `b`. -/
def Before (l : List Nat) (a b : Nat) : Prop :=
  ∃ l1 l2, l = l1 ++ a :: l2 ∧ b ∈ l2

/-- In the preorder of a located child forest, every node comes before
each of its own children. -/
theorem before_of_edge {w : World} {F : Fst} (h : Agree w F) :
    ∀ (ks : Fst),
      (∀ x ksx, KidsAtF ks x ksx → KidsAtF F x ksx) →
      ∀ pq cq, pq ∈ Fst.nodes ks → parentLink w .base cq = some pq →
      Before (Fst.nodes ks) pq cq
  | .nil, _, pq, cq, hpq, _ => by rw [nodes_nil] at hpq; exact absurd hpq (by simp)
  | .cons (.node a ks0) ts, hloc, pq, cq, hpq, hpl => by
    rw [nodes_cons, nodes_node, List.mem_append, List.mem_cons] at hpq
    rcases hpq with (rfl | hpq0) | hpqts
    · obtain ⟨ksc, hlocc, hkc⟩ := (agree_edge_iff h).1 hpl
      have hlocA : KidsAtF F pq ks0 := hloc pq ks0 (KidsAtF.head (KidsAtT.here pq ks0))
      have heqc : ksc = ks0 := kidsAtF_unique h.nodup hlocc hlocA
      have hkc0 : cq ∈ Fst.rootsOf ks0 := heqc ▸ hkc
      refine ⟨[], Fst.nodes ks0 ++ Fst.nodes ts, ?_, ?_⟩
      · rw [nodes_cons, nodes_node, List.nil_append, List.cons_append]
      · exact List.mem_append.2 (Or.inl (rootsOf_subset_nodes _ _ hkc0))
    · have hloc0 : ∀ x ksx, KidsAtF ks0 x ksx → KidsAtF F x ksx := fun x ksx hx =>
        hloc x ksx (KidsAtF.head (KidsAtT.deeper hx))
      obtain ⟨l1, l2, heq, hc⟩ := before_of_edge h ks0 hloc0 pq cq hpq0 hpl
      refine ⟨a :: l1, l2 ++ Fst.nodes ts, ?_, List.mem_append.2 (Or.inl hc)⟩
      rw [nodes_cons, nodes_node, heq, List.cons_append]
      simp [List.append_assoc]
    · have hlocts : ∀ x ksx, KidsAtF ts x ksx → KidsAtF F x ksx := fun x ksx hx =>
        hloc x ksx (KidsAtF.tail hx)
      obtain ⟨l1, l2, heq, hc⟩ := before_of_edge h ts hlocts pq cq hpqts hpl
      refine ⟨(a :: Fst.nodes ks0) ++ l1, l2, ?_, hc⟩
      rw [nodes_cons, nodes_node, heq]
      simp [List.append_assoc]

end HecsHierarchy

namespace HecsHierarchy

/-- Execution of `detach` when all four lookups succeed: the call returns
`ok` and performs exactly the unlink. -/
theorem detach_exec {w : World} {t : Tag} {child : Nat} {d dpv dnx : Child} {pd : Parent}
    (h1 : viewC w t child = some d)
    (h2 : viewC w t d.prev = some dpv)
    (h3 : viewC (setC w t d.prev { dpv with next := d.next }) t d.next = some dnx)
    (h4 : viewP (setC (setC w t d.prev { dpv with next := d.next }) t d.next
      { dnx with prev := d.prev }) t d.parent = some pd) :
    detach w t child = (.ok (),
      setP (setC (setC w t d.prev { dpv with next := d.next }) t d.next
        { dnx with prev := d.prev }) t d.parent
        ⟨pd.num_children - 1, if pd.last_child = child then d.prev else pd.last_child⟩) := by
  have g1 : tryGetC w t child = .ok d := tryGetC_ok_iff.2 h1
  have g2 : tryGetC w t d.prev = .ok dpv := tryGetC_ok_iff.2 h2
  have g3 : tryGetC (setC w t d.prev { dpv with next := d.next }) t d.next = .ok dnx :=
    tryGetC_ok_iff.2 h3
  have g4 : tryGetP (setC (setC w t d.prev { dpv with next := d.next }) t d.next
      { dnx with prev := d.prev }) t d.parent = .ok pd := tryGetP_ok_iff.2 h4
  unfold detach
  rw [g1]
  dsimp only
  rw [g2]
  dsimp only
  rw [g3]
  dsimp only
  rw [g4]

/-- A successful `detach` leaves the child's own `Child<T>` component in
place with unchanged value. -/
theorem detach_exec_child_eq {w : World} {t : Tag} {child : Nat} {d dpv dnx : Child}
    {pd : Parent}
    (h1 : viewC w t child = some d)
    (h2 : viewC w t d.prev = some dpv)
    (h3 : viewC (setC w t d.prev { dpv with next := d.next }) t d.next = some dnx) :
    viewC (setP (setC (setC w t d.prev { dpv with next := d.next }) t d.next
      { dnx with prev := d.prev }) t d.parent
      ⟨pd.num_children - 1, if pd.last_child = child then d.prev else pd.last_child⟩)
      t child = some d := by
  have hal : child ∈ w.alive := viewC_some_alive h1
  rw [viewC_setP]
  by_cases hnx : child = d.next
  · have hdnx : dnx = d := by
      by_cases hpv2 : d.next = d.prev
      · have h3b : viewC (setC w t d.prev { dpv with next := d.next }) t d.next
            = some { dpv with next := d.next } := by
          rw [hpv2]
          exact viewC_setC_self _ (by rw [hpv2] at hnx; exact hnx ▸ hal)
        have hdpv : dpv = d := by
          have h6 := h2
          rw [← hpv2, ← hnx, h1] at h6
          exact (Option.some.inj h6).symm
        rw [h3b] at h3
        have h5 := (Option.some.inj h3).symm
        rw [h5, hdpv]
      · have h3b : viewC (setC w t d.prev { dpv with next := d.next }) t d.next
            = viewC w t d.next := viewC_setC_ne _ (fun hh => hpv2 hh.2)
        rw [h3b, ← hnx, h1] at h3
        exact (Option.some.inj h3).symm
    rw [hnx]
    rw [viewC_setC_self _ (show d.next ∈ (setC w t d.prev
      { dpv with next := d.next }).alive from hnx ▸ hal)]
    rw [hdnx]
  · rw [viewC_setC_ne _ (fun hh => hnx hh.2)]
    by_cases hpv : child = d.prev
    · have hdpv : dpv = d := by
        have h6 := h2
        rw [← hpv, h1] at h6
        exact (Option.some.inj h6).symm
      rw [← hpv, viewC_setC_self _ hal, hdpv]
    · rw [viewC_setC_ne _ (fun hh => hpv hh.2)]
      exact h1

end HecsHierarchy

namespace HecsHierarchy

theorem tryGetC_shape (w : World) (t : Tag) (e : Nat) :
    (∃ d, tryGetC w t e = .ok d) ∨ ∃ er, tryGetC w t e = .err er := by
  unfold tryGetC
  by_cases h : e ∈ w.alive
  · rw [if_pos h]
    cases w.cComp t e with
    | none => exact Or.inr ⟨_, rfl⟩
    | some d => exact Or.inl ⟨d, rfl⟩
  · rw [if_neg h]
    exact Or.inr ⟨_, rfl⟩

theorem tryGetP_shape (w : World) (t : Tag) (e : Nat) :
    (∃ v, tryGetP w t e = .ok v) ∨ ∃ er, tryGetP w t e = .err er := by
  unfold tryGetP
  by_cases h : e ∈ w.alive
  · rw [if_pos h]
    cases w.pComp t e with
    | none => exact Or.inr ⟨_, rfl⟩
    | some v => exact Or.inl ⟨v, rfl⟩
  · rw [if_neg h]
    exact Or.inr ⟨_, rfl⟩

/-- `attach` surfaces failures as error results; it has no panic path. -/
theorem attach_no_panic (w : World) (t : Tag) (c p : Nat) :
    (attach w t c p).1 ≠ .panicked := by
  unfold attach
  rcases tryGetP_shape w t p with ⟨v, hg⟩ | ⟨er, hg⟩
  · rw [hg]
    dsimp only
    rcases tryGetC_shape (setP w t p ⟨v.num_children + 1, c⟩) t v.last_child with
      ⟨d1, hg1⟩ | ⟨er1, hg1⟩
    · rw [hg1]
      dsimp only
      rcases tryGetC_shape (setC (setP w t p ⟨v.num_children + 1, c⟩) t v.last_child
          { d1 with next := c }) t d1.next with ⟨d2, hg2⟩ | ⟨er2, hg2⟩
      · rw [hg2]
        dsimp only
        split
        · simp
        · simp
      · rw [hg2]
        simp
    · rw [hg1]
      simp
  · rw [hg]
    dsimp only
    split
    · split
      · simp
      · simp
    · simp

/-- `detach` surfaces failures as error results; it has no panic path. -/
theorem detach_no_panic (w : World) (t : Tag) (c : Nat) :
    (detach w t c).1 ≠ .panicked := by
  unfold detach
  rcases tryGetC_shape w t c with ⟨d, hg⟩ | ⟨er, hg⟩
  · rw [hg]
    dsimp only
    rcases tryGetC_shape w t d.prev with ⟨d1, hg1⟩ | ⟨er1, hg1⟩
    · rw [hg1]
      dsimp only
      rcases tryGetC_shape (setC w t d.prev { d1 with next := d.next }) t d.next with
        ⟨d2, hg2⟩ | ⟨er2, hg2⟩
      · rw [hg2]
        dsimp only
        rcases tryGetP_shape (setC (setC w t d.prev { d1 with next := d.next }) t d.next
            { d2 with prev := d.prev }) t d.parent with ⟨v, hg3⟩ | ⟨er3, hg3⟩
        · rw [hg3]
          simp
        · rw [hg3]
          simp
      · rw [hg2]
        simp
    · rw [hg1]
      simp
  · rw [hg]
    simp

/-- `attach_new` spawns then attaches; no panic path. -/
theorem attach_new_no_panic (w : World) (t : Tag) (p : Nat) :
    (attach_new w t p).1 ≠ .panicked := by
  unfold attach_new
  exact attach_no_panic _ t _ p

/-- Detaching an entity that lacks `Child<T>` surfaces `MissingComponent`. -/
theorem detach_missing_component {w : World} {t : Tag} {c : Nat}
    (hal : c ∈ w.alive) (hc : w.cComp t c = none) :
    (detach w t c).1 = .err (.MissingComponent c) := by
  have hg : tryGetC w t c = .err (.MissingComponent c) := by
    unfold tryGetC
    rw [if_pos hal, hc]
  unfold detach
  rw [hg]

/-- Attaching to a despawned parent surfaces `NoSuchEntity`. -/
theorem attach_no_such_entity {w : World} {t : Tag} {c p : Nat}
    (hp : p ∉ w.alive) :
    (attach w t c p).1 = .err (.NoSuchEntity p) := by
  have hg : tryGetP w t p = .err (.NoSuchEntity p) := by
    unfold tryGetP
    rw [if_neg hp]
  unfold attach
  rw [hg]
  dsimp only
  rw [if_neg hp]

/-- A live entity without `Parent<T>` has an empty children iterator. -/
theorem childrenList_no_parent {w : World} {t : Tag} {p : Nat}
    (hc : w.pComp t p = none) :
    childrenList w t p = [] ∧ childrenCount w t p = 0 := by
  have hInit : childrenInit w t p = (0, none) := by
    rw [childrenInit]
    unfold tryGetP
    by_cases hal : p ∈ w.alive
    · rw [if_pos hal, hc]
    · rw [if_neg hal]
  exact ⟨by rw [childrenList, hInit]; rfl, by rw [childrenCount, hInit]⟩

/-- `detach_children` on a live entity without `Parent<T>` panics: the
collected child list is empty and `remove_one::<Parent<T>>(..).unwrap()`
fails. -/
theorem detach_children_panics {w : World} {t : Tag} {p : Nat}
    (hal : p ∈ w.alive) (hc : w.pComp t p = none) :
    (detach_children w t p).1 = .panicked := by
  have hempty : childrenList w t p = [] := (childrenList_no_parent hc).1
  have hloop : removeChildLoop w t (childrenList w t p) = (.ok (), w) := by
    rw [hempty, removeChildLoop]
  have heq : detach_children w t p = (.panicked, w) := by
    unfold detach_children
    dsimp only
    rw [hloop]
    dsimp only
    rw [if_neg (fun hh => by rw [hc] at hh; exact absurd hh.2 (by simp))]
  rw [heq]

/-- A failed lookup silently ends the `ChildrenIter` walk. -/
theorem childrenRun_silent {w : World} {t : Tag} {cur : Nat} (n : Nat)
    (h : viewC w t cur = none) : childrenRun w t (n + 1) (some cur) = [] := by
  rw [childrenRun, h]

/-- A failed lookup silently ends the `AncestorIter` walk. -/
theorem ancestorsRun_silent {w : World} {t : Tag} {cur : Nat} (n : Nat)
    (h : viewC w t cur = none) : ancestorsRun w t (n + 1) cur = [] := by
  rw [ancestorsRun, h]

/-- A failed lookup during `DepthFirstIterator::next` panics. -/
theorem dfsNext_panics {w : World} {t : Tag} {cur r : Nat} {rest : List Frame}
    (h : viewC w t cur = none) :
    dfsNext w t (Frame.mk cur (r + 1) :: rest) = .panicked := by
  rw [dfsNext, h]

/-- A failed lookup during `DepthFirstVisitor::next` panics. -/
theorem visitorStep_panics {w : World} {t : Tag} {accept : Nat → Bool} {cur r : Nat}
    {rest : List Frame} (h : viewC w t cur = none) :
    visitorStep w t accept (Frame.mk cur (r + 1) :: rest) = .panicked := by
  rw [visitorStep, h]

/-- The chain of ancestors of `e`: successive `Child<T>.parent` links up
to an entity with no `Child<T>` component. -/
def UpChain (w : World) (t : Tag) : Nat → List Nat → Prop
  | e, [] => viewC w t e = none
  | e, q :: qs => parentLink w t e = some q ∧ UpChain w t q qs

/-- `AncestorIter` yields the full ancestor chain, final root included. -/
theorem ancestorsRun_upchain {w : World} {t : Tag} :
    ∀ (ps : List Nat) (e : Nat), UpChain w t e ps →
    ∀ fuel, ps.length < fuel → ancestorsRun w t fuel e = ps
  | [], e, h, fuel, hf => by
    obtain ⟨f, rfl⟩ : ∃ f, fuel = f + 1 := ⟨fuel - 1, by omega⟩
    exact ancestorsRun_silent f h
  | q :: qs, e, h, fuel, hf => by
    obtain ⟨f, rfl⟩ : ∃ f, fuel = f + 1 := ⟨fuel - 1, by omega⟩
    obtain ⟨hpl, hrest⟩ := h
    rw [parentLink] at hpl
    cases hv : viewC w t e with
    | none => rw [hv] at hpl; exact absurd hpl (by simp)
    | some d =>
      rw [hv] at hpl
      have hdq : d.parent = q := by simpa using hpl
      rw [ancestorsRun, hv]
      dsimp only
      rw [hdq]
      have : qs.length < f := by simpa using hf
      rw [ancestorsRun_upchain qs q hrest f this]

end HecsHierarchy

namespace HecsHierarchy

theorem detach_err_world {w : World} {t : Tag} {c : Nat}
    (h : ∀ d, tryGetC w t c ≠ .ok d) : (detach w t c).2 = w := by
  unfold detach
  cases hg : tryGetC w t c with
  | ok d => exact absurd hg (h d)
  | err e => rfl
  | panicked => rfl
  | fuelOut => rfl

/-- `despawn_all::<Child<T>>(c)` in a world holding no `Child<T>`-tagged
components at all: the depth-first descendant walk is empty, the `detach`
errs without mutating, and only `c` itself is despawned. -/
theorem despawn_all_child_tag {w : World} {t : Tag} {c fuel : Nat}
    (hp : ∀ x, w.pComp (Tag.child t) x = none)
    (hc : ∀ x, w.cComp (Tag.child t) x = none) (hf : 1 ≤ fuel) :
    despawn_all w (Tag.child t) fuel c = (.ok (), despawnW w c) := by
  have hvp : viewP w (Tag.child t) c = none := by
    unfold viewP
    split
    · exact hp c
    · rfl
  have hnew : dfsNew w (Tag.child t) c = [] := by rw [dfsNew, hvp]
  obtain ⟨f, rfl⟩ : ∃ f, fuel = f + 1 := ⟨fuel - 1, by omega⟩
  have hdesc : descendantsDF w (Tag.child t) (f + 1) c = .ok [] := by
    rw [descendantsDF, hnew, dfsRun]
    rfl
  have hdet : (detach w (Tag.child t) c).2 = w := by
    refine detach_err_world (fun d hg => ?_)
    unfold tryGetC at hg
    split at hg
    · rw [hc c] at hg
      exact Res.noConfusion hg
    · exact Res.noConfusion hg
  unfold despawn_all
  rw [hdesc]
  dsimp only [List.foldl_nil]
  rw [hdet]

/-- The child-despawning loop of `despawn_children` in a world with no
`Child<T>`-tagged components: it despawns exactly the listed entities. -/
theorem despawnChildLoop_spec {t : Tag} {fuel : Nat} (hf : 1 ≤ fuel) :
    ∀ (cs : List Nat) (w : World),
    (∀ x, w.pComp (Tag.child t) x = none) →
    (∀ x, w.cComp (Tag.child t) x = none) →
    despawnChildLoop w t fuel cs = (.ok (), cs.foldl despawnW w)
  | [], w, hp, hc => rfl
  | c :: cs, w, hp, hc => by
    rw [despawnChildLoop, despawn_all_child_tag hp hc hf]
    dsimp only
    rw [despawnChildLoop_spec hf cs (despawnW w c)
      (fun x => by
        show (if x = c then none else w.pComp (Tag.child t) x) = none
        split
        · rfl
        · exact hp x)
      (fun x => by
        show (if x = c then none else w.cComp (Tag.child t) x) = none
        split
        · rfl
        · exact hc x)]
    rfl

theorem alive_foldl_despawn :
    ∀ (cs : List Nat) (w : World) (x : Nat),
    x ∈ (cs.foldl despawnW w).alive ↔ x ∈ w.alive ∧ x ∉ cs
  | [], w, x => by simp
  | c :: cs, w, x => by
    have hm : x ∈ (despawnW w c).alive ↔ x ∈ w.alive ∧ x ≠ c := by
      simp [despawnW, List.mem_filter]
    rw [List.foldl_cons, alive_foldl_despawn cs (despawnW w c) x, hm, List.mem_cons]
    constructor
    · rintro ⟨⟨h1, h2⟩, h3⟩
      exact ⟨h1, fun hor => hor.elim h2 h3⟩
    · rintro ⟨h1, h2⟩
      exact ⟨⟨h1, fun he => h2 (Or.inl he)⟩, fun hm => h2 (Or.inr hm)⟩

theorem pComp_foldl_despawn :
    ∀ (cs : List Nat) (w : World) (t1 : Tag) (x : Nat), x ∉ cs →
    (cs.foldl despawnW w).pComp t1 x = w.pComp t1 x
  | [], w, t1, x, h => rfl
  | c :: cs, w, t1, x, h => by
    rw [List.foldl_cons,
      pComp_foldl_despawn cs (despawnW w c) t1 x (fun hm => h (List.mem_cons_of_mem c hm))]
    show (if x = c then none else w.pComp t1 x) = w.pComp t1 x
    rw [if_neg (fun (he : x = c) => h (he ▸ List.mem_cons_self c cs))]

theorem cComp_foldl_despawn :
    ∀ (cs : List Nat) (w : World) (t1 : Tag) (x : Nat), x ∉ cs →
    (cs.foldl despawnW w).cComp t1 x = w.cComp t1 x
  | [], w, t1, x, h => rfl
  | c :: cs, w, t1, x, h => by
    rw [List.foldl_cons,
      cComp_foldl_despawn cs (despawnW w c) t1 x (fun hm => h (List.mem_cons_of_mem c hm))]
    show (if x = c then none else w.cComp t1 x) = w.cComp t1 x
    rw [if_neg (fun (he : x = c) => h (he ▸ List.mem_cons_self c cs))]

/-- Full execution of `despawn_children` in a world with no `Child<T>`
components: the collected children are despawned, then `Parent<T>` is
removed from `parent`; nothing else changes. -/
theorem despawn_children_exec {w : World} {t : Tag} {fuel p : Nat}
    (hf : 1 ≤ fuel)
    (hp : ∀ x, w.pComp (Tag.child t) x = none)
    (hc : ∀ x, w.cComp (Tag.child t) x = none)
    (hal : p ∈ w.alive) (hnp : p ∉ childrenList w t p)
    (hps : (w.pComp t p).isSome) :
    despawn_children w t fuel p =
      (.ok (), removeP ((childrenList w t p).foldl despawnW w) t p) := by
  unfold despawn_children
  dsimp only
  rw [despawnChildLoop_spec hf (childrenList w t p) w hp hc]
  dsimp only
  rw [if_pos ⟨(alive_foldl_despawn _ w p).mpr ⟨hal, hnp⟩, by
    rw [pComp_foldl_despawn _ w t p hnp]; exact hps⟩]

end HecsHierarchy

namespace HecsHierarchy

theorem detach_spec {w : World} {t : Tag} {p c : Nat} {rs : List Nat}
    (hnode : NodeOk w t p rs) (hmem : c ∈ rs) (hnd : rs.Nodup) :
    ∃ d, viewC w t c = some d ∧ d.parent = p ∧
      (detach w t c).1 = .ok () ∧
      viewC (detach w t c).2 t c = some d ∧
      (∃ pd pd', viewP w t p = some pd ∧ pd.num_children = rs.length ∧
        viewP (detach w t c).2 t p = some pd' ∧ pd'.num_children + 1 = rs.length) ∧
      (∃ rs2, childrenList (detach w t c).2 t p = rs2 ∧ rs2.length + 1 = rs.length ∧
        c ∉ rs2 ∧ ∀ x ∈ rs2, x ∈ rs) ∧
      (∀ k, parentLink (detach w t c).2 t k = parentLink w t k) ∧
      (∀ x, x ≠ p → viewP (detach w t c).2 t x = viewP w t x) ∧
      (detach w t c).2.alive = w.alive := by
  cases rs with
  | nil => cases hmem
  | cons r rs1 =>
  obtain ⟨hal, hvp, hcy⟩ := hnode
  obtain ⟨A, B, hAB⟩ := List.append_of_mem hmem
  have hrot : CycleOk w t p (c :: (B ++ A)) := by
    have := cycleOk_rotate A (hAB ▸ hcy)
    simpa using this
  have hperm : List.Perm (r :: rs1) (c :: (B ++ A)) := by
    rw [hAB]
    have h0 : List.Perm (A ++ c :: B) ((c :: B) ++ A) := List.perm_append_comm
    simpa using h0
  have hrotKeep := hrot
  obtain ⟨hch, hwrapN, dw, hdw, hdwp, hdwprev⟩ := hrot
  have hcal : c ∈ w.alive := viewC_some_alive hdw
  cases hBA : B ++ A with
  | nil =>
    rw [hBA] at hdwprev hperm
    obtain ⟨hB0, hA0⟩ := List.append_eq_nil.mp hBA
    subst hB0
    subst hA0
    simp only [List.nil_append, List.append_nil] at hAB
    obtain ⟨hrc, rfl⟩ := List.cons.inj hAB
    have hcr := hrc.symm
    subst hcr
    -- sole child: rs = [c]
    obtain ⟨d1, hd1, hd1p, hd1n⟩ := hwrapN
    have hd1w : d1 = dw := Option.some.inj ((show viewC w t c = some d1 from hd1).symm.trans hdw)
    have hnextc : dw.next = c := by rw [← hd1w]; exact hd1n
    have hprevc : dw.prev = c := hdwprev
    have h2 : viewC w t dw.prev = some dw := by rw [hprevc]; exact hdw
    have h3 : viewC (setC w t dw.prev { dw with next := dw.next }) t dw.next =
        some { dw with next := dw.next } := by
      rw [hprevc, hnextc]
      exact viewC_setC_self _ hcal
    have h4 : viewP (setC (setC w t dw.prev { dw with next := dw.next }) t dw.next
        { { dw with next := dw.next } with prev := dw.prev }) t dw.parent =
        some ⟨1, c⟩ := by
      rw [viewP_setC, viewP_setC, hdwp]
      exact hvp
    have heq := detach_exec hdw h2 h3 h4
    have hfst : (detach w t c).1 = .ok () := by rw [heq]
    have hcX : viewC (detach w t c).2 t c = some dw := by
      rw [heq]
      exact detach_exec_child_eq hdw h2 h3
    have halX : (detach w t c).2.alive = w.alive := by rw [heq]; rfl
    have hvX : viewP (detach w t c).2 t p =
        some ⟨(1 : Nat) - 1, if (Parent.mk 1 c).last_child = c then dw.prev
          else (Parent.mk 1 c).last_child⟩ := by
      rw [heq]
      dsimp only
      rw [← hdwp]
      exact viewP_setP_self _ (by rw [hdwp]; exact hal)
    have hlc : (if (Parent.mk 1 c).last_child = c then dw.prev
        else (Parent.mk 1 c).last_child) = c := by
      dsimp only
      rw [if_pos rfl]
      exact hprevc
    have hInit : childrenInit (detach w t c).2 t p = (1 - 1, some dw.next) := by
      rw [childrenInit, tryGetP_ok_iff.2 hvX]
      dsimp only
      rw [hlc, tryGetC_ok_iff.2 hcX]
    refine ⟨dw, hdw, hdwp, hfst, hcX, ⟨⟨1, c⟩, _, hvp, rfl, hvX, rfl⟩,
      ⟨[], ?_, by simp, by simp, by simp⟩, ?_, ?_, halX⟩
    · rw [childrenList, hInit]
      rfl
    · intro k
      by_cases hkc : k = c
      · subst hkc
        rw [parentLink, parentLink, hcX, hdw]
      · rw [parentLink, parentLink, heq]
        dsimp only
        rw [viewC_setP, viewC_setC_ne _ (fun hh => hkc (hh.2.trans hnextc)),
          viewC_setC_ne _ (fun hh => hkc (hh.2.trans hprevc))]
    · intro x hx
      rw [heq]
      dsimp only
      rw [viewP_setP_ne _ (fun hh => hx (hh.2.trans hdwp)), viewP_setC, viewP_setC]
  | cons b l =>
    rw [hBA] at hch hdwprev hperm hrotKeep
    have hdwprev2 : dw.prev = lastD b l := hdwprev
    rw [List.chain_cons] at hch
    obtain ⟨⟨⟨dcn, hdcn, hdcnp, hdcnn⟩, _⟩, hchl⟩ := hch
    have hdcw : dcn = dw := Option.some.inj (hdcn.symm.trans hdw)
    have hdwnext : dw.next = b := by rw [← hdcw]; exact hdcnn
    have hcyc2 : CycleOk w t p ((b :: l) ++ [c]) := cycleOk_rot1 hrotKeep
    have hndc : (c :: b :: l).Nodup := hperm.nodup hnd
    have hcnotin : c ∉ b :: l := (List.nodup_cons.mp hndc).1
    have hnd2 : ((b :: l) ++ [c]).Nodup :=
      (List.perm_append_comm :
        (([c] ++ (b :: l)) : List Nat).Perm ((b :: l) ++ [c])).nodup hndc
    have hpvbl : dw.prev ∈ b :: l := by rw [hdwprev2]; exact lastD_mem l b
    have hblsubrs : ∀ x ∈ b :: l, x ∈ r :: rs1 :=
      fun x hx => hperm.mem_iff.2 (List.mem_cons_of_mem c hx)
    obtain ⟨dpv, hdpv, hdpvp⟩ := cycleOk_mem_data hcy (hblsubrs _ hpvbl)
    have hpval : dw.prev ∈ w.alive := viewC_some_alive hdpv
    have hnxbl : dw.next ∈ b :: l := by rw [hdwnext]; exact List.mem_cons_self b l
    obtain ⟨dnx0, hdnx0, hdnx0p⟩ := cycleOk_mem_data hcy (hblsubrs _ hnxbl)
    have hnxal : dw.next ∈ w.alive := viewC_some_alive hdnx0
    have hdnxpack : ∃ dnx, viewC (setC w t dw.prev { dpv with next := dw.next }) t dw.next =
        some dnx ∧ dnx.parent = p ∧ dnx.next = (if dw.next = dw.prev then dw.next
          else dnx0.next) ∧ (dw.next ≠ dw.prev → dnx = dnx0) := by
      by_cases hpn : dw.next = dw.prev
      · refine ⟨{ dpv with next := dw.next }, ?_, hdpvp, by rw [if_pos hpn],
          fun h => absurd hpn h⟩
        rw [hpn]
        exact viewC_setC_self _ hpval
      · refine ⟨dnx0, ?_, hdnx0p, by rw [if_neg hpn], fun h => rfl⟩
        rw [viewC_setC_ne _ (fun hh => hpn hh.2)]
        exact hdnx0
    obtain ⟨dnx, h3, hdnxp, hdnxnext, hdnxeq⟩ := hdnxpack
    have h4 : viewP (setC (setC w t dw.prev { dpv with next := dw.next }) t dw.next
        { dnx with prev := dw.prev }) t dw.parent =
        some ⟨(r :: rs1).length, lastD r rs1⟩ := by
      rw [viewP_setC, viewP_setC, hdwp]
      exact hvp
    have heq := detach_exec hdw hdpv h3 h4
    have hfst : (detach w t c).1 = .ok () := by rw [heq]
    have hcX : viewC (detach w t c).2 t c = some dw := by
      rw [heq]
      exact detach_exec_child_eq hdw hdpv h3
    have halX : (detach w t c).2.alive = w.alive := by rw [heq]; rfl
    have hXC : ∀ x, viewC (detach w t c).2 t x =
        viewC (setC (setC w t dw.prev { dpv with next := dw.next }) t dw.next
          { dnx with prev := dw.prev }) t x := by
      intro x
      rw [heq]
      rfl
    have hW2nx : viewC (setC (setC w t dw.prev { dpv with next := dw.next }) t dw.next
        { dnx with prev := dw.prev }) t dw.next = some { dnx with prev := dw.prev } :=
      viewC_setC_self _ hnxal
    have hW2pv : dw.prev ≠ dw.next →
        viewC (setC (setC w t dw.prev { dpv with next := dw.next }) t dw.next
          { dnx with prev := dw.prev }) t dw.prev = some { dpv with next := dw.next } := by
      intro hne
      rw [viewC_setC_ne _ (fun hh => hne hh.2)]
      exact viewC_setC_self _ hpval
    have hW2other : ∀ x, x ≠ dw.next → x ≠ dw.prev →
        viewC (setC (setC w t dw.prev { dpv with next := dw.next }) t dw.next
          { dnx with prev := dw.prev }) t x = viewC w t x := by
      intro x h1 h2
      rw [viewC_setC_ne _ (fun hh => h1 hh.2), viewC_setC_ne _ (fun hh => h2 hh.2)]
    have hcyX : CycleOk (detach w t c).2 t p (b :: l) := by
      refine cycle_detach hcyc2 hnd2 ?_ ?_ ?_ ?_
      · intro x hx hxl
        have hxpv : x ≠ dw.prev := by rw [hdwprev2]; exact hxl
        by_cases hxn : x = dw.next
        · subst hxn
          have hne : dw.next ≠ dw.prev := hxpv
          rw [nextParent, nextParent, hXC, hW2nx, hdnx0, hdnxeq hne]
          rfl
        · rw [nextParent, nextParent, hXC, hW2other x hxn hxpv]
      · intro x hx hxb
        have hxn : x ≠ dw.next := by rw [hdwnext]; exact hxb
        by_cases hxpv : x = dw.prev
        · subst hxpv
          rw [prevParent, prevParent, hXC, hW2pv hxn, hdpv]
          rfl
        · rw [prevParent, prevParent, hXC, hW2other x hxn hxpv]
      · by_cases hne : dw.prev = dw.next
        · refine ⟨{ dnx with prev := dw.prev }, ?_, hdnxp, ?_⟩
          · rw [← hdwprev2, hXC]
            nth_rewrite 3 [hne]
            exact hW2nx
          · show dnx.next = b
            rw [hdnxnext, if_pos hne.symm]
            exact hdwnext
        · refine ⟨{ dpv with next := dw.next }, ?_, hdpvp, hdwnext⟩
          rw [← hdwprev2, hXC]
          exact hW2pv hne
      · refine ⟨{ dnx with prev := dw.prev }, ?_, hdnxp, hdwprev2⟩
        rw [← hdwnext, hXC]
        exact hW2nx
    obtain ⟨lc, hlcdef⟩ : ∃ lc, (if lastD r rs1 = c then dw.prev else lastD r rs1) = lc :=
      ⟨_, rfl⟩
    have hvXp : viewP (detach w t c).2 t p = some ⟨(r :: rs1).length - 1, lc⟩ := by
      rw [heq]
      dsimp only
      rw [hlcdef, ← hdwp]
      exact viewP_setP_self _ (hdwp ▸ hal)
    have hlcmem : lc ∈ b :: l := by
      rw [← hlcdef]
      by_cases hl : lastD r rs1 = c
      · rw [if_pos hl]
        exact hpvbl
      · rw [if_neg hl]
        have h5 : lastD r rs1 ∈ c :: b :: l := hperm.mem_iff.1 (lastD_mem rs1 r)
        rcases List.mem_cons.mp h5 with he | hbl
        · exact absurd he hl
        · exact hbl
    obtain ⟨D1, D2, hD⟩ := List.append_of_mem hlcmem
    have hsh : D1 ++ lc :: D2 = (D1 ++ [lc]) ++ D2 := by simp
    rw [hD, hsh] at hcyX
    have hcyX2 := cycleOk_rotate (D1 ++ [lc]) hcyX
    have hsh2 : D2 ++ (D1 ++ [lc]) = D2 ++ D1 ++ [lc] := by
      rw [List.append_assoc]
    rw [hsh2] at hcyX2
    obtain ⟨m, M, hM⟩ := List.exists_cons_of_ne_nil
      (show D2 ++ D1 ++ [lc] ≠ [] by simp)
    have hlastM : lastD m M = lc := lastD_of_append_singleton_eq hM
    have hlenM : (m :: M).length = (b :: l).length := by
      rw [← hM, hD]
      simp only [List.length_append, List.length_cons, List.length_nil]
      omega
    have hlenrs : (b :: l).length + 1 = (r :: rs1).length := by
      rw [hperm.length_eq]
      simp
    have hnodeX : NodeOk (detach w t c).2 t p (m :: M) := by
      refine ⟨?_, ?_, ?_⟩
      · rw [halX]
        exact hal
      · rw [hvXp, hlastM]
        have hl9 : (r :: rs1).length - 1 = (m :: M).length := by omega
        rw [hl9]
      · rw [← hM]
        exact hcyX2
    have hclX := childrenList_of_nodeOk hnodeX
    have hsubM : ∀ x ∈ m :: M, x ∈ b :: l := by
      intro x hx
      rw [← hM] at hx
      rw [hD]
      simp only [List.mem_append, List.mem_cons, List.mem_singleton] at hx ⊢
      tauto
    refine ⟨dw, hdw, hdwp, hfst, hcX,
      ⟨⟨(r :: rs1).length, lastD r rs1⟩, ⟨(r :: rs1).length - 1, lc⟩, hvp, rfl, hvXp,
        by simp only [List.length_cons]; omega⟩,
      ⟨m :: M, hclX.1, by omega, fun hc9 => hcnotin (hsubM c hc9),
        fun x hx => hblsubrs x (hsubM x hx)⟩, ?_, ?_, halX⟩
    · intro k
      by_cases hkc : k = c
      · subst hkc
        rw [parentLink, parentLink, hcX, hdw]
      · by_cases hkn : k = dw.next
        · subst hkn
          rw [parentLink, parentLink, hXC, hW2nx, hdnx0]
          dsimp only [Option.map]
          show some dnx.parent = some dnx0.parent
          rw [hdnxp, hdnx0p]
        · by_cases hkp : k = dw.prev
          · subst hkp
            rw [parentLink, parentLink, hXC, hW2pv hkn, hdpv]
            rfl
          · rw [parentLink, parentLink, hXC, hW2other k hkn hkp]
    · intro x hx
      rw [heq]
      dsimp only
      rw [viewP_setP_ne _ (fun hh => hx (hh.2.trans hdwp)), viewP_setC, viewP_setC]

end HecsHierarchy

namespace HecsHierarchy

/-- A forest edge of a built world supplies a well-formed parent node
carrying `c` in its duplicate-free child-root list. -/
theorem edge_node {w : World} {F : Fst} {p c : Nat} (hb : Build w F) (he : EdgeF F p c) :
    ∃ ks, KidsAtF F p ks ∧ NodeOk w .base p (Fst.rootsOf ks) ∧ c ∈ Fst.rootsOf ks ∧
      (Fst.rootsOf ks).Nodup ∧ p ∉ Fst.nodes ks := by
  obtain ⟨ks, hloc, hc⟩ := he
  have hag := build_agree hb
  have hpn := kidsAtF_nodes_nodup hag.nodup hloc
  exact ⟨ks, hloc, (kidsAtF_ok hag.ok hloc).1, hc,
    (rootsOf_sublist_nodes ks).nodup (List.nodup_cons.mp hpn).2,
    (List.nodup_cons.mp hpn).1⟩

/-- C4: for a child `c` currently attached under `p` in a built hierarchy,
`detach c` succeeds; afterwards `c` no longer appears in `children(p)`,
`p`'s `num_children` decreases by exactly one (and the children walk is one
shorter), every `Child.parent` link in the world is unchanged - so the
children of `c` stay attached to `c` - and `c`'s own `Parent` component is
untouched: the detached subtree moves as a unit. -/
theorem detach_correct {w : World} {F : Fst} {p c : Nat}
    (hb : Build w F) (he : EdgeF F p c) :
    (detach w .base c).1 = .ok () ∧
    c ∉ childrenList (detach w .base c).2 .base p ∧
    (childrenList (detach w .base c).2 .base p).length + 1 =
      (childrenList w .base p).length ∧
    (∃ pd pd', viewP w .base p = some pd ∧
      viewP (detach w .base c).2 .base p = some pd' ∧
      pd'.num_children + 1 = pd.num_children) ∧
    (∀ k, parentLink (detach w .base c).2 .base k = parentLink w .base k) ∧
    viewP (detach w .base c).2 .base c = viewP w .base c := by
  obtain ⟨ks, hloc, hnode, hc, hnd, hpnk⟩ := edge_node hb he
  have hcp : c ≠ p := fun he9 =>
    hpnk (he9 ▸ rootsOf_subset_nodes ks c hc)
  obtain ⟨d, hdw, hdp, hfst, hcX, ⟨pd, pd', h1, h2, h3, h4⟩,
    ⟨rs2, hcl, hlen, hnotin, hsub⟩, hpl, hvP, halX⟩ := detach_spec hnode hc hnd
  have hbefore := (childrenList_of_nodeOk hnode).1
  refine ⟨hfst, ?_, ?_, ⟨pd, pd', h1, h3, by omega⟩, hpl, hvP c hcp⟩
  · rw [hcl]
    exact hnotin
  · rw [hcl, hbefore]
    omega

def wEx1 : World := (spawnW World.empty).2

def wEx2 : World := (spawnW wEx1).2

def FEx2 : Fst := .cons (.node 1 .nil) (.cons (.node 0 .nil) .nil)

def wEx3 : World := (attach wEx2 .base 1 0).2

def FEx3 : Fst := addKidF (FEx2.removeTop 1) 0 (.node 1 .nil)

theorem build_wEx3 : Build wEx3 FEx3 :=
  Build.attach (Build.spawn (Build.spawn Build.empty)) rfl (by decide) rfl

theorem edge_FEx3 : EdgeF FEx3 0 1 :=
  ⟨.cons (.node 1 .nil) .nil, KidsAtF.head (KidsAtT.here 0 _), by simp [Fst.rootsOf, Tre.root]⟩

theorem detach_correct_witness :
    Build wEx3 FEx3 ∧ EdgeF FEx3 0 1 ∧
    ((detach wEx3 .base 1).1 = .ok () ∧
      1 ∉ childrenList (detach wEx3 .base 1).2 .base 0 ∧
      (childrenList (detach wEx3 .base 1).2 .base 0).length + 1 =
        (childrenList wEx3 .base 0).length ∧
      (∃ pd pd', viewP wEx3 .base 0 = some pd ∧
        viewP (detach wEx3 .base 1).2 .base 0 = some pd' ∧
        pd'.num_children + 1 = pd.num_children) ∧
      (∀ k, parentLink (detach wEx3 .base 1).2 .base k = parentLink wEx3 .base k) ∧
      viewP (detach wEx3 .base 1).2 .base 1 = viewP wEx3 .base 1) :=
  ⟨build_wEx3, edge_FEx3, detach_correct build_wEx3 edge_FEx3⟩

end HecsHierarchy

namespace HecsHierarchy

theorem viewC_some_comp {w : World} {t : Tag} {e : Nat} {d : Child}
    (h : viewC w t e = some d) : w.cComp t e = some d := by
  unfold viewC at h
  split at h
  · exact h
  · exact Option.noConfusion h

/-- C8: a successful `detach(c)` leaves `c`'s own `Child<T>` component in
place with its `parent` field unchanged, so `parent(c)` afterwards still
returns the former parent rather than an error, and `c` stays excluded
from `roots::<T>()`. -/
theorem detach_preserves_child_component {w : World} {F : Fst} {p c : Nat}
    (hb : Build w F) (he : EdgeF F p c) :
    ∃ d, viewC w .base c = some d ∧ d.parent = p ∧
      (detach w .base c).1 = .ok () ∧
      viewC (detach w .base c).2 .base c = some d ∧
      parentOf (detach w .base c).2 .base c = .ok p ∧
      c ∉ rootsList (detach w .base c).2 .base := by
  obtain ⟨ks, hloc, hnode, hc, hnd, hpnk⟩ := edge_node hb he
  obtain ⟨d, hdw, hdp, hfst, hcX, hview, hch, hpl, hvP, halX⟩ := detach_spec hnode hc hnd
  refine ⟨d, hdw, hdp, hfst, hcX, ?_, ?_⟩
  · rw [parentOf, tryGetC_ok_iff.2 hcX, Res.map, hdp]
  · intro hmem
    rw [rootsList, List.mem_filter] at hmem
    have hcomp := viewC_some_comp hcX
    rw [hcomp] at hmem
    simp at hmem

theorem detach_preserves_child_component_witness :
    Build wEx3 FEx3 ∧ EdgeF FEx3 0 1 ∧
    (∃ d, viewC wEx3 .base 1 = some d ∧ d.parent = 0 ∧
      (detach wEx3 .base 1).1 = .ok () ∧
      viewC (detach wEx3 .base 1).2 .base 1 = some d ∧
      parentOf (detach wEx3 .base 1).2 .base 1 = .ok 0 ∧
      1 ∉ rootsList (detach wEx3 .base 1).2 .base) :=
  ⟨build_wEx3, edge_FEx3, detach_preserves_child_component build_wEx3 edge_FEx3⟩

end HecsHierarchy

namespace HecsHierarchy

theorem viewP_some_comp {w : World} {t : Tag} {e : Nat} {v : Parent}
    (h : viewP w t e = some v) : w.pComp t e = some v := by
  unfold viewP at h
  split at h
  · exact h
  · exact Option.noConfusion h

/-- C10: `despawn_children(p)` despawns exactly `p`'s direct children and
removes `p`'s `Parent<T>`; grandchildren and deeper descendants survive,
because the recursive `despawn_all` runs with marker `Child<T>`, a
hierarchy in which nothing is attached. -/
theorem despawn_children_spares_grandchildren {w : World} {F : Fst} {p fuel : Nat}
    {ks : Fst} (hb : Build w F) (hloc : KidsAtF F p ks)
    (hne : Fst.rootsOf ks ≠ []) (hf : 1 ≤ fuel) :
    (despawn_children w .base fuel p).1 = .ok () ∧
    childrenList w .base p = Fst.rootsOf ks ∧
    (∀ k ∈ Fst.rootsOf ks, k ∉ (despawn_children w .base fuel p).2.alive) ∧
    (despawn_children w .base fuel p).2.pComp .base p = none ∧
    (∀ e ∈ w.alive, e ∉ Fst.rootsOf ks → e ∈ (despawn_children w .base fuel p).2.alive) ∧
    (∀ g ∈ Fst.nodes ks, g ∉ Fst.rootsOf ks →
      g ∈ (despawn_children w .base fuel p).2.alive) := by
  have hag := build_agree hb
  have hnode := (kidsAtF_ok hag.ok hloc).1
  have hcl := (childrenList_of_nodeOk hnode).1
  have hpn := kidsAtF_nodes_nodup hag.nodup hloc
  have hal : p ∈ w.alive := hnode.1
  have hnp : p ∉ childrenList w .base p := by
    rw [hcl]
    intro hmem
    exact (List.nodup_cons.mp hpn).1 (rootsOf_subset_nodes ks p hmem)
  have hps : (w.pComp .base p).isSome := by
    obtain ⟨r, rs, hcons⟩ := List.exists_cons_of_ne_nil hne
    rw [hcons] at hnode
    obtain ⟨h9, hvp9, h10⟩ := hnode
    rw [viewP_some_comp hvp9]
    rfl
  have honlyP : ∀ x, w.pComp (Tag.child .base) x = none :=
    fun x => (hag.only_base (Tag.child .base) x (fun h => Tag.noConfusion h)).1
  have honlyC : ∀ x, w.cComp (Tag.child .base) x = none :=
    fun x => (hag.only_base (Tag.child .base) x (fun h => Tag.noConfusion h)).2
  have hexec := despawn_children_exec hf honlyP honlyC hal hnp hps
  rw [hexec]
  dsimp only
  refine ⟨rfl, hcl, ?_, ?_, ?_, ?_⟩
  · intro k hk hmem
    have hmem2 : k ∈ ((childrenList w .base p).foldl despawnW w).alive := hmem
    rw [alive_foldl_despawn] at hmem2
    rw [hcl] at hmem2
    exact hmem2.2 hk
  · show (if Tag.base = Tag.base ∧ p = p then none
      else ((childrenList w .base p).foldl despawnW w).pComp .base p) = none
    rw [if_pos ⟨rfl, rfl⟩]
  · intro e he hnot
    show e ∈ ((childrenList w .base p).foldl despawnW w).alive
    rw [alive_foldl_despawn, hcl]
    exact ⟨he, hnot⟩
  · intro g hg hnot
    have hgal : g ∈ w.alive := (hag.cover g).2 (kidsAtF_nodes_sub hloc g hg)
    show g ∈ ((childrenList w .base p).foldl despawnW w).alive
    rw [alive_foldl_despawn, hcl]
    exact ⟨hgal, hnot⟩

theorem kids_FEx3 : KidsAtF FEx3 0 (.cons (.node 1 .nil) .nil) :=
  KidsAtF.head (KidsAtT.here 0 _)

theorem despawn_children_spares_grandchildren_witness :
    Build wEx3 FEx3 ∧ KidsAtF FEx3 0 (.cons (.node 1 .nil) .nil) ∧
    Fst.rootsOf (.cons (.node 1 .nil) .nil) ≠ [] ∧ 1 ≤ 1 ∧
    ((despawn_children wEx3 .base 1 0).1 = .ok () ∧
      childrenList wEx3 .base 0 = Fst.rootsOf (.cons (.node 1 .nil) .nil) ∧
      (∀ k ∈ Fst.rootsOf (.cons (.node 1 .nil) .nil),
        k ∉ (despawn_children wEx3 .base 1 0).2.alive) ∧
      (despawn_children wEx3 .base 1 0).2.pComp .base 0 = none ∧
      (∀ e ∈ wEx3.alive, e ∉ Fst.rootsOf (.cons (.node 1 .nil) .nil) →
        e ∈ (despawn_children wEx3 .base 1 0).2.alive) ∧
      (∀ g ∈ Fst.nodes (.cons (.node 1 .nil) .nil),
        g ∉ Fst.rootsOf (.cons (.node 1 .nil) .nil) →
        g ∈ (despawn_children wEx3 .base 1 0).2.alive)) :=
  ⟨build_wEx3, kids_FEx3, by simp [Fst.rootsOf, Tre.root], le_refl 1,
    despawn_children_spares_grandchildren build_wEx3 kids_FEx3
      (by simp [Fst.rootsOf, Tre.root]) (le_refl 1)⟩

end HecsHierarchy

namespace HecsHierarchy

mutual
/-- Appending a kid tree at `p` updates `p`'s located child forest with a
`snoc`. -/
theorem kidsAt_addKidT_fwd : ∀ {tr : Tre} {p : Nat} {tc : Tre} {ks : Fst},
    tr.nodes.Nodup → KidsAtT tr p ks → KidsAtT (addKidT tr p tc) p (ks.snoc tc)
  | .node e ks0, p, tc, ks, hnd, h => by
    cases h with
    | here =>
      rw [addKidT, if_pos rfl]
      exact KidsAtT.here _ _
    | deeper h1 =>
      have hpk : p ∈ Fst.nodes ks0 := (kidsAtF_mem h1).1
      have hep : e ≠ p := by
        rw [Tre.nodes, List.nodup_cons] at hnd
        exact fun he => hnd.1 (he ▸ hpk)
      rw [addKidT, if_neg hep]
      refine KidsAtT.deeper (kidsAt_addKidF_fwd ?_ h1)
      rw [Tre.nodes, List.nodup_cons] at hnd
      exact hnd.2

theorem kidsAt_addKidF_fwd : ∀ {F : Fst} {p : Nat} {tc : Tre} {ks : Fst},
    (Fst.nodes F).Nodup → KidsAtF F p ks → KidsAtF (addKidF F p tc) p (ks.snoc tc)
  | .cons t ts, p, tc, ks, hnd, h => by
    rw [Fst.nodes, List.nodup_append] at hnd
    cases h with
    | head h1 =>
      rw [addKidF]
      exact KidsAtF.head (kidsAt_addKidT_fwd hnd.1 h1)
    | tail h1 =>
      rw [addKidF]
      exact KidsAtF.tail (kidsAt_addKidF_fwd hnd.2.1 h1)
end

/-- C9: a successful `attach(c, p)` splices `c` at the tail of `p`'s
sibling cycle: afterwards `children(p)` yields the old sequence with `c`
appended, `c` is the parent's new `last_child`, and `num_children` grew by
one - so children are always yielded in attach order. -/
theorem children_in_attach_order {w : World} {F : Fst} {c p : Nat} {tc : Tre}
    (hb : Build w F) (hTop : Fst.getTop F c = some tc)
    (hp : p ∈ Fst.nodes (F.removeTop c)) :
    (attach w .base c p).1 = .ok c ∧
    childrenList (attach w .base c p).2 .base p = childrenList w .base p ++ [c] ∧
    (∃ pd', viewP (attach w .base c p).2 .base p = some pd' ∧ pd'.last_child = c ∧
      pd'.num_children = (childrenList w .base p).length + 1) := by
  have hag := build_agree hb
  obtain ⟨hok, hagre⟩ := attach_agree hag hTop hp
  obtain ⟨ksR, hksR⟩ := kidsAtF_exists hp
  have hokR : FstOk w .base (F.removeTop c) := (getTop_ok hag.ok hTop).2
  have hclOld : childrenList w .base p = Fst.rootsOf ksR :=
    (childrenList_of_nodeOk (kidsAtF_ok hokR hksR).1).1
  have hndR : (Fst.nodes (F.removeTop c)).Nodup := by
    have hperm9 := (getTop_nodes_perm hTop).nodup hag.nodup
    rw [List.nodup_append] at hperm9
    exact hperm9.2.1
  have hfwd : KidsAtF (addKidF (F.removeTop c) p tc) p (ksR.snoc tc) :=
    kidsAt_addKidF_fwd hndR hksR
  have hnodeNew := (kidsAtF_ok hagre.ok hfwd).1
  have hroots : Fst.rootsOf (ksR.snoc tc) = Fst.rootsOf ksR ++ [c] := by
    rw [rootsOf_snoc, getTop_root hTop]
  rw [hroots] at hnodeNew
  obtain ⟨m, M, hM⟩ := List.exists_cons_of_ne_nil
    (show Fst.rootsOf ksR ++ [c] ≠ [] by simp)
  rw [hM] at hnodeNew
  have hclNew := (childrenList_of_nodeOk hnodeNew).1
  obtain ⟨hal9, hvp9, hcy9⟩ := hnodeNew
  refine ⟨hok, ?_, ⟨⟨(m :: M).length, lastD m M⟩, hvp9, ?_, ?_⟩⟩
  · rw [hclNew, hclOld, hM]
  · exact lastD_of_append_singleton_eq hM
  · rw [hclOld]
    rw [← hM]
    simp

theorem children_in_attach_order_witness :
    Build wEx2 FEx2 ∧ Fst.getTop FEx2 1 = some (.node 1 .nil) ∧
    0 ∈ Fst.nodes (FEx2.removeTop 1) ∧
    ((attach wEx2 .base 1 0).1 = .ok 1 ∧
      childrenList (attach wEx2 .base 1 0).2 .base 0 = childrenList wEx2 .base 0 ++ [1] ∧
      (∃ pd', viewP (attach wEx2 .base 1 0).2 .base 0 = some pd' ∧ pd'.last_child = 1 ∧
        pd'.num_children = (childrenList wEx2 .base 0).length + 1)) :=
  ⟨Build.spawn (Build.spawn Build.empty), rfl, by decide,
    children_in_attach_order (Build.spawn (Build.spawn Build.empty)) rfl (by decide)⟩

end HecsHierarchy

namespace HecsHierarchy

/-- C2: on a hierarchy built solely by successful `attach` calls,
`descendants_depth_first(root)` yields exactly the preorder of `root`'s
child forest: every strict descendant exactly once (the list is
duplicate-free and excludes `root`), parents before their own children,
and the length is the total descendant count. -/
theorem descendants_depth_first_correct {w : World} {F : Fst} {root fuel : Nat} {ks : Fst}
    (hb : Build w F) (hloc : KidsAtF F root ks) (hfuel : (Fst.nodes ks).length < fuel) :
    descendantsDF w .base fuel root = .ok (Fst.nodes ks) ∧
    (Fst.nodes ks).Nodup ∧
    root ∉ Fst.nodes ks ∧
    (∀ e, e ∈ Fst.nodes ks ↔ Desc w .base root e) ∧
    (∀ pq cq, pq ∈ Fst.nodes ks → parentLink w .base cq = some pq →
      Before (Fst.nodes ks) pq cq) := by
  have hag := build_agree hb
  have hpn := kidsAtF_nodes_nodup hag.nodup hloc
  have hlift : ∀ x ksx, KidsAtF ks x ksx → KidsAtF F x ksx := fun x ksx hx =>
    kidsAtF_trans hloc hx
  have hpl : ∀ r ∈ Fst.rootsOf ks, parentLink w .base r = some root := fun r hr =>
    (agree_edge_iff hag).2 ⟨ks, hloc, hr⟩
  refine ⟨descendantsDF_of_located hag hloc fuel hfuel, (List.nodup_cons.mp hpn).2,
    (List.nodup_cons.mp hpn).1, ?_, before_of_edge hag ks hlift⟩
  intro e
  constructor
  · exact desc_of_mem hag ks root hlift hpl e
  · exact mem_of_desc hag hloc

theorem descendants_depth_first_correct_witness :
    Build wEx3 FEx3 ∧ KidsAtF FEx3 0 (.cons (.node 1 .nil) .nil) ∧
    (Fst.nodes (.cons (.node 1 .nil) .nil)).length < 2 ∧
    (descendantsDF wEx3 .base 2 0 = .ok (Fst.nodes (.cons (.node 1 .nil) .nil)) ∧
      (Fst.nodes (.cons (.node 1 .nil) .nil)).Nodup ∧
      0 ∉ Fst.nodes (.cons (.node 1 .nil) .nil) ∧
      (∀ e, e ∈ Fst.nodes (.cons (.node 1 .nil) .nil) ↔ Desc wEx3 .base 0 e) ∧
      (∀ pq cq, pq ∈ Fst.nodes (.cons (.node 1 .nil) .nil) →
        parentLink wEx3 .base cq = some pq →
        Before (Fst.nodes (.cons (.node 1 .nil) .nil)) pq cq)) :=
  ⟨build_wEx3, kids_FEx3, by decide,
    descendants_depth_first_correct build_wEx3 kids_FEx3 (by decide)⟩

end HecsHierarchy

namespace HecsHierarchy

/-- C3: when `p` holds `Parent<T>` and its sibling cycle is well formed,
`children(p)` yields exactly `num_children` entities (and
`ChildrenIter::count` reports the same number); when `p` has no
`Parent<T>`, `children(p)` is the empty sequence with count `0`, not an
error. -/
theorem children_count_correct (w : World) (t : Tag) (p : Nat) :
    (∀ rs pd, NodeOk w t p rs → viewP w t p = some pd →
      childrenList w t p = rs ∧ (childrenList w t p).length = pd.num_children ∧
      childrenCount w t p = pd.num_children) ∧
    (w.pComp t p = none → childrenList w t p = [] ∧ childrenCount w t p = 0) := by
  refine ⟨?_, childrenList_no_parent⟩
  intro rs pd hnode hpd
  obtain ⟨hcl, hcc⟩ := childrenList_of_nodeOk hnode
  cases rs with
  | nil =>
    obtain ⟨h9, hvp9⟩ := hnode
    rw [hvp9] at hpd
    exact Option.noConfusion hpd
  | cons r rs1 =>
    obtain ⟨h9, hvp9, hcy9⟩ := hnode
    have hpdeq : pd = ⟨(r :: rs1).length, lastD r rs1⟩ :=
      Option.some.inj (hpd.symm.trans hvp9)
    rw [hpdeq, hcl, hcc]
    exact ⟨rfl, rfl, rfl⟩

theorem nodeOk_wEx3 : NodeOk wEx3 .base 0 [1] :=
  ⟨by decide, rfl, ⟨List.Chain.nil, ⟨⟨0, 1, 1⟩, rfl, rfl, rfl⟩, ⟨0, 1, 1⟩, rfl, rfl, rfl⟩⟩

theorem children_count_correct_witness :
    (NodeOk wEx3 .base 0 [1] ∧ viewP wEx3 .base 0 = some ⟨1, 1⟩ ∧
      childrenList wEx3 .base 0 = [1] ∧ (childrenList wEx3 .base 0).length = 1 ∧
      childrenCount wEx3 .base 0 = 1) ∧
    (wEx1.pComp .base 0 = none ∧ childrenList wEx1 .base 0 = [] ∧
      childrenCount wEx1 .base 0 = 0) :=
  ⟨⟨nodeOk_wEx3, rfl,
    (children_count_correct wEx3 .base 0).1 [1] ⟨1, 1⟩ nodeOk_wEx3 rfl⟩,
    ⟨rfl, (children_count_correct wEx1 .base 0).2 rfl⟩⟩

/-- C5 (amended): `ancestors(e)` yields the full chain of ancestors
obtained by repeatedly following `Child<T>.parent` - INCLUDING the final
root - and stops exactly when the current entity has no `Child<T>`
component (`AncestorIter::next` yields `child.parent` before checking
whether it is itself a child). -/
theorem ancestors_include_root {w : World} {t : Tag} {e : Nat} {ps : List Nat}
    (h : UpChain w t e ps) {fuel : Nat} (hf : ps.length < fuel) :
    ancestorsRun w t fuel e = ps :=
  ancestorsRun_upchain ps e h fuel hf

/-- C5 counterexample to the original wording: in the two-entity hierarchy
`0 <- 1`, the final root `0` IS yielded by `ancestors(1)`, not excluded. -/
theorem ancestors_include_root_counterexample :
    ancestorsRun wEx3 .base 5 1 = [0] ∧ viewC wEx3 .base 0 = none ∧
    parentLink wEx3 .base 1 = some 0 := ⟨rfl, rfl, rfl⟩

theorem ancestors_include_root_witness :
    UpChain wEx3 .base 1 [0] ∧ ([0] : List Nat).length < 5 ∧
    ancestorsRun wEx3 .base 5 1 = [0] := by
  have hup : UpChain wEx3 .base 1 [0] := ⟨rfl, rfl⟩
  exact ⟨hup, by decide, ancestors_include_root hup (by decide)⟩

/-- C6 (amended): `ChildrenIter` and `AncestorIter` (and hence
`BreadthFirstIterator`, which reads through `children`) end the walk
silently on a failed `Child<T>` lookup; but `DepthFirstIterator::next` and
`DepthFirstVisitor::next` `unwrap()` that lookup and panic instead. -/
theorem iterators_lookup_failure_behavior :
    (∀ (w : World) (t : Tag) (cur n : Nat), viewC w t cur = none →
      childrenRun w t (n + 1) (some cur) = []) ∧
    (∀ (w : World) (t : Tag) (cur n : Nat), viewC w t cur = none →
      ancestorsRun w t (n + 1) cur = []) ∧
    (∀ (w : World) (t : Tag) (cur r : Nat) (rest : List Frame), viewC w t cur = none →
      dfsNext w t (Frame.mk cur (r + 1) :: rest) = .panicked) ∧
    (∀ (w : World) (t : Tag) (accept : Nat → Bool) (cur r : Nat) (rest : List Frame),
      viewC w t cur = none →
      visitorStep w t accept (Frame.mk cur (r + 1) :: rest) = .panicked) :=
  ⟨fun _ _ _ n h => childrenRun_silent n h,
    fun _ _ _ n h => ancestorsRun_silent n h,
    fun _ _ _ _ _ h => dfsNext_panics h,
    fun _ _ _ _ _ _ h => visitorStep_panics h⟩

/-- C6 counterexample to the original wording: a corrupted world in which a
sibling referenced by a `Child<T>.next` link lacks its own `Child<T>`;
`descendants_depth_first` panics rather than terminating silently. -/
def wCorrupt : World :=
  { nextId := 3, alive := [0, 1, 2],
    pComp := fun t e => if t = .base ∧ e = 0 then some ⟨1, 1⟩ else none,
    cComp := fun t e => if t = .base ∧ e = 1 then some ⟨0, 2, 2⟩ else none }

theorem iterators_lookup_failure_counterexample :
    descendantsDF wCorrupt .base 5 0 = .panicked ∧ viewC wCorrupt .base 2 = none :=
  ⟨rfl, rfl⟩

theorem iterators_lookup_failure_behavior_witness :
    viewC wEx1 .base 0 = none ∧
    childrenRun wEx1 .base 1 (some 0) = [] ∧
    ancestorsRun wEx1 .base 1 0 = [] ∧
    dfsNext wEx1 .base [Frame.mk 0 1] = .panicked ∧
    visitorStep wEx1 .base (fun _ => true) [Frame.mk 0 1] = .panicked :=
  ⟨rfl, iterators_lookup_failure_behavior.1 wEx1 .base 0 0 rfl,
    iterators_lookup_failure_behavior.2.1 wEx1 .base 0 0 rfl,
    iterators_lookup_failure_behavior.2.2.1 wEx1 .base 0 0 [] rfl,
    iterators_lookup_failure_behavior.2.2.2 wEx1 .base (fun _ => true) 0 0 [] rfl⟩

/-- C7 (amended): `attach`, `attach_new` and `detach` surface expected
misuse as explicit `NoSuchEntity`/`MissingComponent` results and never
panic; but `detach_children` (and through it `detach_all` and
`despawn_children`) calls `remove_one::<Parent<T>>(parent).unwrap()` and
panics on a live entity that lacks `Parent<T>`. -/
theorem mutation_misuse_behavior :
    (∀ (w : World) (t : Tag) (c p : Nat), (attach w t c p).1 ≠ .panicked) ∧
    (∀ (w : World) (t : Tag) (p : Nat), (attach_new w t p).1 ≠ .panicked) ∧
    (∀ (w : World) (t : Tag) (c : Nat), (detach w t c).1 ≠ .panicked) ∧
    (∀ (w : World) (t : Tag) (c : Nat), c ∈ w.alive → w.cComp t c = none →
      (detach w t c).1 = .err (.MissingComponent c)) ∧
    (∀ (w : World) (t : Tag) (c p : Nat), p ∉ w.alive →
      (attach w t c p).1 = .err (.NoSuchEntity p)) ∧
    (∀ (w : World) (t : Tag) (p : Nat), p ∈ w.alive → w.pComp t p = none →
      (detach_children w t p).1 = .panicked) :=
  ⟨attach_no_panic, attach_new_no_panic, detach_no_panic,
    fun _ _ _ h1 h2 => detach_missing_component h1 h2,
    fun _ _ _ _ h => attach_no_such_entity h,
    fun _ _ _ h1 h2 => detach_children_panics h1 h2⟩

/-- C7 counterexample to the original wording: `detach_children` on a live
entity with no `Parent<T>` panics instead of returning `MissingComponent`. -/
theorem mutation_misuse_counterexample :
    0 ∈ wEx1.alive ∧ wEx1.pComp .base 0 = none ∧
    (detach_children wEx1 .base 0).1 = .panicked := ⟨by decide, rfl, rfl⟩

theorem mutation_misuse_behavior_witness :
    (0 ∈ wEx1.alive ∧ wEx1.cComp .base 0 = none ∧
      (detach wEx1 .base 0).1 = .err (.MissingComponent 0)) ∧
    ((5 : Nat) ∉ wEx1.alive ∧ (attach wEx1 .base 0 5).1 = .err (.NoSuchEntity 5)) ∧
    (0 ∈ wEx1.alive ∧ wEx1.pComp .base 0 = none ∧
      (detach_children wEx1 .base 0).1 = .panicked) :=
  ⟨⟨by decide, rfl, mutation_misuse_behavior.2.2.2.1 wEx1 .base 0 (by decide) rfl⟩,
    ⟨by decide, mutation_misuse_behavior.2.2.2.2.1 wEx1 .base 0 5 (by decide)⟩,
    ⟨by decide, rfl, mutation_misuse_behavior.2.2.2.2.2 wEx1 .base 0 (by decide) rfl⟩⟩

/-- C1 (code bug): after `detach` removes a parent's last child, the
parent keeps a `Parent<T>` component with `num_children = 0`, violating
the documented invariant that `Parent<T>` exists iff `num_children >= 1`:
`HierarchyMut::detach` never removes the parent's `Parent<T>`. -/
theorem detach_leaves_empty_parent :
    (detach wEx3 .base 1).1 = .ok () ∧
    (detach wEx3 .base 1).2.pComp .base 0 = some ⟨0, 1⟩ ∧
    childrenList (detach wEx3 .base 1).2 .base 0 = [] :=
  ⟨rfl, rfl, rfl⟩

end HecsHierarchy
